import Mathlib

/-!
Verification of the nested-table PDF processor core against its specification.

The Python source is embedded shallowly:
* floating-point page coordinates and scores become exact rationals (`ℚ`);
* the floating-point square root used by `np.linalg.norm` is abstracted as an
  explicit function parameter `sqrtFn : ℚ → ℚ`;
* Python lists of mutable dicts become Lean lists of records, with in-place
  mutation rendered as `List.set` at the element's index;
* fallible operations (KeyError, numpy/hnswlib exceptions, a non-terminating
  loop) return `Option`, with `none` marking the abnormal outcome.
-/

namespace NestedTable

/-! ## Geometry: `src/table_extraction/detector.py` -/

/-- A bounding box `(x1, y1, x2, y2)` in page coordinates. -/
structure Bbox where
  x1 : ℚ
  y1 : ℚ
  x2 : ℚ
  y2 : ℚ
deriving DecidableEq, Repr

/-- `TableDetector._calculate_area`: `(x2 - x1) * (y2 - y1)`. -/
def calculate_area (b : Bbox) : ℚ :=
  (b.x2 - b.x1) * (b.y2 - b.y1)

/-- `TableDetector._is_contained(inner_bbox, outer_bbox, threshold)`.
The source computes the intersection rectangle, returns `False` when it is
empty, and otherwise tests `contained_ratio > threshold and area_ratio < 0.9`. -/
def is_contained (inner outer : Bbox) (threshold : ℚ) : Bool :=
  let ix1 := max inner.x1 outer.x1
  let iy1 := max inner.y1 outer.y1
  let ix2 := min inner.x2 outer.x2
  let iy2 := min inner.y2 outer.y2
  if ix1 ≥ ix2 ∨ iy1 ≥ iy2 then
    false
  else
    let intersection_area := (ix2 - ix1) * (iy2 - iy1)
    let inner_area := (inner.x2 - inner.x1) * (inner.y2 - inner.y1)
    let contained_ratio := intersection_area / inner_area
    let area_ratio := inner_area / calculate_area outer
    decide (contained_ratio > threshold ∧ area_ratio < 0.9)

/-- A rectangle has positive width and height. -/
def valid_bbox (b : Bbox) : Prop :=
  b.x1 < b.x2 ∧ b.y1 < b.y2

instance (b : Bbox) : Decidable (valid_bbox b) := by
  unfold valid_bbox; infer_instance

/-- The intersection rectangle of two bboxes (spec wording for step 3 of the
NestingResolver algorithm). -/
def inter_rect (a b : Bbox) : Bbox :=
  ⟨max a.x1 b.x1, max a.y1 b.y1, min a.x2 b.x2, min a.y2 b.y2⟩

/-- Stated from the spec's words, for comparison with `is_contained`:
"B is considered a child of A iff the intersection rectangle of A and B is
non-empty, `intersection_area / area(B) > 0.85`, and `area(B) / area(A) < 0.9`". -/
def spec_is_child (b a : Bbox) : Prop :=
  valid_bbox (inter_rect a b) ∧
    calculate_area (inter_rect a b) / calculate_area b > 0.85 ∧
    calculate_area b / calculate_area a < 0.9

/-- C2: for valid rectangles the containment test agrees with the spec's
three-condition characterisation, and two regions with `area_ratio ≥ 0.9`
never form a parent/child pair. -/
theorem contained_iff_spec_child (a b : Bbox)
    (_ha : valid_bbox a) (_hb : valid_bbox b) :
    (is_contained b a 0.85 = true ↔ spec_is_child b a) ∧
      (calculate_area b / calculate_area a ≥ 0.9 →
        is_contained b a 0.85 = false) := by
  constructor
  · have hcomm : inter_rect a b =
        ⟨max b.x1 a.x1, max b.y1 a.y1, min b.x2 a.x2, min b.y2 a.y2⟩ := by
      unfold inter_rect
      rw [max_comm a.x1, max_comm a.y1, min_comm a.x2, min_comm a.y2]
    unfold spec_is_child
    rw [hcomm]
    unfold is_contained valid_bbox calculate_area
    dsimp only
    by_cases hemp : max b.x1 a.x1 ≥ min b.x2 a.x2 ∨ max b.y1 a.y1 ≥ min b.y2 a.y2
    · rw [if_pos hemp]
      simp only [Bool.false_eq_true, false_iff]
      rintro ⟨⟨hx, hy⟩, -, -⟩
      rcases hemp with h | h
      · exact absurd hx (not_lt.mpr h)
      · exact absurd hy (not_lt.mpr h)
    · rw [if_neg hemp]
      push_neg at hemp
      simp only [decide_eq_true_eq]
      constructor
      · rintro ⟨h1, h2⟩
        exact ⟨⟨hemp.1, hemp.2⟩, h1, h2⟩
      · rintro ⟨_, h1, h2⟩
        exact ⟨h1, h2⟩
  · intro hge
    unfold is_contained
    dsimp only
    by_cases hemp : max b.x1 a.x1 ≥ min b.x2 a.x2 ∨ max b.y1 a.y1 ≥ min b.y2 a.y2
    · rw [if_pos hemp]
    · rw [if_neg hemp]
      simp only [decide_eq_false_iff_not, not_and, not_lt]
      intro _
      unfold calculate_area at hge
      exact hge

/-- Witness for C2 at the spec's end-to-end rectangles
`A = (0,0,100,100)`, `B = (10,10,90,90)`. -/
theorem contained_iff_spec_child_witness :
    (valid_bbox ⟨0, 0, 100, 100⟩ ∧ valid_bbox ⟨10, 10, 90, 90⟩) ∧
      ((is_contained ⟨10, 10, 90, 90⟩ ⟨0, 0, 100, 100⟩ 0.85 = true ↔
          spec_is_child ⟨10, 10, 90, 90⟩ ⟨0, 0, 100, 100⟩) ∧
        (calculate_area ⟨10, 10, 90, 90⟩ / calculate_area ⟨0, 0, 100, 100⟩ ≥ 0.9 →
          is_contained ⟨10, 10, 90, 90⟩ ⟨0, 0, 100, 100⟩ 0.85 = false)) :=
  ⟨⟨by decide, by decide⟩,
    contained_iff_spec_child ⟨0, 0, 100, 100⟩ ⟨10, 10, 90, 90⟩ (by decide) (by decide)⟩

/-! ## Table regions and the nesting resolver -/

/-- One entry of `tables_info` as produced by the detection stage. -/
structure TableInfo where
  table_id : String
  page : Nat
  bbox : Bbox
  parent_id : Option String
  nesting_level : Nat
deriving DecidableEq, Repr

/-- Area of the bbox stored at index `k`; out-of-range indices give `0`
(they never occur along the code paths below). -/
def area_at (ts : List TableInfo) (k : Nat) : ℚ :=
  match ts[k]? with
  | some t => calculate_area t.bbox
  | none => 0

/-- The page of the entry at index `k` (out-of-range: `none`). -/
def page_at (ts : List TableInfo) (k : Nat) : Option Nat :=
  (ts[k]?).map (·.page)

/-- First-occurrence order of the pages in `tables_info`, mirroring the
insertion order of the Python dict `tables_by_page`. -/
def pages_in_order (ts : List TableInfo) : List Nat :=
  ts.foldl (fun acc t => if t.page ∈ acc then acc else acc ++ [t.page]) []

/-- The indices of the tables lying on page `p`, in list order (the order in
which the Python code appended them to `tables_by_page[p]`). -/
def page_indices (ts : List TableInfo) (p : Nat) : List Nat :=
  (List.range ts.length).filter (fun k => page_at ts k = some p)

/-- `page_tables.sort(key=lambda x: area(x['bbox']), reverse=True)`:
a stable descending sort by area, acting here on indices into the shared
`tables_info` list (the Python dicts are shared by reference, so sorting the
per-page list and mutating its members mutates `tables_info`). -/
def sort_by_area_desc (ts : List TableInfo) (idxs : List Nat) : List Nat :=
  List.insertionSort (fun i j => area_at ts i ≥ area_at ts j) idxs

/-- The nested double loop of `_detect_nested_relationships` for one page:
for each ordered pair `(outer, inner)` of distinct positions in the sorted
per-page list, if `is_contained(inner.bbox, outer.bbox)` then
`inner['parent_id'] = outer['table_id']`. -/
def assign_page (sorted : List Nat) (ts : List TableInfo) : List TableInfo :=
  sorted.foldl (fun ts1 i =>
    sorted.foldl (fun ts2 j =>
      if i = j then ts2
      else
        match ts2[i]?, ts2[j]? with
        | some outer, some inner =>
          if is_contained inner.bbox outer.bbox 0.85 then
            ts2.set j { inner with parent_id := some outer.table_id }
          else ts2
        | _, _ => ts2) ts1) ts

/-- The parent-assignment phase of `_detect_nested_relationships`: group by
page, sort each page's tables by area descending, then run the double loop. -/
def assign_parents (ts : List TableInfo) : List TableInfo :=
  (pages_in_order ts).foldl
    (fun acc p => assign_page (sort_by_area_desc acc (page_indices acc p)) acc) ts

/-- `table_id_to_index = {table['table_id']: i for i, table in enumerate(...)}`:
a later duplicate id overwrites an earlier one, like the Python dict. -/
def table_id_to_index (ts : List TableInfo) (tid : String) : Option Nat :=
  (List.range ts.length).foldl
    (fun acc k =>
      match ts[k]? with
      | some t => if t.table_id = tid then some k else acc
      | none => acc) none

/-- Initialisation step of `_calculate_nesting_levels`: set every level to 0. -/
def init_levels (ts : List TableInfo) : List TableInfo :=
  ts.map (fun t => { t with nesting_level := 0 })

/-- One body execution of the `for table in tables_info` loop inside the
fixpoint pass.  `none` models the `KeyError` raised when a `parent_id` is not
a known `table_id` (impossible along the resolver pipeline, proven below). -/
def pass_step (lookup : String → Option Nat) (st : List TableInfo × Bool)
    (k : Nat) : Option (List TableInfo × Bool) :=
  match st.1[k]? with
  | none => some st
  | some t =>
    match t.parent_id with
    | none => some st
    | some pid =>
      match lookup pid with
      | none => none
      | some pi =>
        match st.1[pi]? with
        | none => none
        | some parent =>
          if t.nesting_level ≤ parent.nesting_level then
            some (st.1.set k { t with nesting_level := parent.nesting_level + 1 },
              true)
          else some st

/-- One full pass of the `while changed` loop (`changed` reset to `False` at
the start of each pass). -/
def one_pass (lookup : String → Option Nat) (ts : List TableInfo) :
    Option (List TableInfo × Bool) :=
  (List.range ts.length).foldl
    (fun acc k => match acc with
      | none => none
      | some st => pass_step lookup st k)
    (some (ts, false))

/-- The `while changed` loop of `_calculate_nesting_levels`, run with explicit
fuel; `none` marks a run that has not reached the fixpoint within `fuel`
passes (the Python loop would still be running). -/
def run_loop (lookup : String → Option Nat) :
    Nat → List TableInfo → Option (List TableInfo)
  | 0, _ => none
  | fuel + 1, ts =>
    match one_pass lookup ts with
    | none => none
    | some (ts', false) => some ts'
    | some (ts', true) => run_loop lookup fuel ts'

/-- Iterate `n` full passes, ignoring the `changed` flag (used to state the
pass-count bound of the spec). -/
def iterate_passes (lookup : String → Option Nat) :
    Nat → List TableInfo → Option (List TableInfo)
  | 0, ts => some ts
  | n + 1, ts =>
    match one_pass lookup ts with
    | none => none
    | some (ts', _) => iterate_passes lookup n ts'

/-- `TableDetector._calculate_nesting_levels`.  The source loop carries no
fuel; `length + 1` passes are enough whenever the Python loop terminates at
all (parent chains are acyclic), so `none` coincides with divergence. -/
def calculate_nesting_levels (ts : List TableInfo) : Option (List TableInfo) :=
  let init := init_levels ts
  run_loop (table_id_to_index init) (ts.length + 1) init

/-- `TableDetector._detect_nested_relationships`: parent assignment followed
by nesting-level resolution. -/
def detect_nested_relationships (ts : List TableInfo) : Option (List TableInfo) :=
  calculate_nesting_levels (assign_parents ts)

/-! ### Observation helpers for resolver states -/

/-- Fields of a table entry never written by `_calculate_nesting_levels`. -/
def frame_of (t : TableInfo) : String × Nat × Bbox × Option String :=
  (t.table_id, t.page, t.bbox, t.parent_id)

/-- Fields of a table entry never written by the whole resolver
(the double loop writes only `parent_id`, the fixpoint only `nesting_level`). -/
def skel_of (t : TableInfo) : String × Nat × Bbox :=
  (t.table_id, t.page, t.bbox)

/-- Two states agree on every field except possibly `nesting_level`. -/
def frame_eq (xs ys : List TableInfo) : Prop :=
  ∀ k : Nat, (xs[k]?).map frame_of = (ys[k]?).map frame_of

/-- Two states agree on every field except possibly `parent_id` and
`nesting_level`. -/
def skel_eq (xs ys : List TableInfo) : Prop :=
  ∀ k : Nat, (xs[k]?).map skel_of = (ys[k]?).map skel_of

/-- The `nesting_level` stored at index `k` (out of range: junk `0`). -/
def level_at (ts : List TableInfo) (k : Nat) : Nat :=
  match ts[k]? with
  | some t => t.nesting_level
  | none => 0

/-- The index of the parent of the entry at `k`, resolved through `lookup`
exactly as the fixpoint loop does. -/
def parent_idx (lookup : String → Option Nat) (ts : List TableInfo) (k : Nat) :
    Option Nat :=
  match ts[k]? with
  | none => none
  | some t =>
    match t.parent_id with
    | none => none
    | some pid => lookup pid

/-- Every stored `parent_id` resolves through `lookup` to an in-range entry of
strictly larger area.  This is what the containment phase establishes and what
makes the fixpoint loop safe and terminating. -/
def resolvable (lookup : String → Option Nat) (ts : List TableInfo) : Prop :=
  ∀ (k : Nat) (t : TableInfo) (pid : String),
    ts[k]? = some t → t.parent_id = some pid →
      ∃ pi p, lookup pid = some pi ∧ ts[pi]? = some p ∧
        calculate_area t.bbox < calculate_area p.bbox

theorem frame_eq_refl (xs : List TableInfo) : frame_eq xs xs := fun _ => rfl

theorem frame_eq_trans {xs ys zs : List TableInfo}
    (h1 : frame_eq xs ys) (h2 : frame_eq ys zs) : frame_eq xs zs :=
  fun k => (h1 k).trans (h2 k)

theorem frame_eq_length {xs ys : List TableInfo} (h : frame_eq xs ys) :
    xs.length = ys.length := by
  by_contra hne
  rcases Nat.lt_or_ge xs.length ys.length with hlt | hge
  · have h1 : xs[xs.length]? = none := by
      simp [List.getElem?_eq_none_iff]
    have h2 : ∃ t, ys[xs.length]? = some t := by
      have : xs.length < ys.length := hlt
      rcases List.getElem?_eq_some.mpr ⟨this, rfl⟩ with h'
      exact ⟨_, h'⟩
    rcases h2 with ⟨t, ht⟩
    have := h xs.length
    rw [h1, ht] at this
    simp at this
  · have hlt : ys.length < xs.length := lt_of_le_of_ne hge (fun h' => hne h'.symm)
    have h1 : ys[ys.length]? = none := by
      simp [List.getElem?_eq_none_iff]
    have h2 : ∃ t, xs[ys.length]? = some t := by
      rcases List.getElem?_eq_some.mpr ⟨hlt, rfl⟩ with h'
      exact ⟨_, h'⟩
    rcases h2 with ⟨t, ht⟩
    have := h ys.length
    rw [h1, ht] at this
    simp at this

/-- Unpack `frame_eq` at an index where the right state is populated. -/
theorem frame_eq_elim {xs ys : List TableInfo} (h : frame_eq xs ys) {k : Nat}
    {t : TableInfo} (ht : ys[k]? = some t) :
    ∃ u, xs[k]? = some u ∧ u.table_id = t.table_id ∧ u.page = t.page ∧
      u.bbox = t.bbox ∧ u.parent_id = t.parent_id := by
  have hk := h k
  rw [ht] at hk
  cases hx : xs[k]? with
  | none => rw [hx] at hk; simp at hk
  | some u =>
    rw [hx] at hk
    have hk2 : frame_of u = frame_of t := by simpa using hk
    unfold frame_of at hk2
    simp only [Prod.mk.injEq] at hk2
    exact ⟨u, rfl, hk2.1, hk2.2.1, hk2.2.2.1, hk2.2.2.2⟩

theorem parent_idx_congr {lookup : String → Option Nat} {xs ys : List TableInfo}
    (h : frame_eq xs ys) (k : Nat) :
    parent_idx lookup xs k = parent_idx lookup ys k := by
  unfold parent_idx
  cases hy : ys[k]? with
  | none =>
    have hx : xs[k]? = none := by
      have hk := h k
      rw [hy] at hk
      cases hx : xs[k]? with
      | none => rfl
      | some u => rw [hx] at hk; simp at hk
    rw [hx]
  | some t =>
    rcases frame_eq_elim h hy with ⟨u, hu, -, -, -, hpar⟩
    rw [hu]
    dsimp only
    rw [hpar]

theorem area_at_congr {xs ys : List TableInfo} (h : frame_eq xs ys) (k : Nat) :
    area_at xs k = area_at ys k := by
  unfold area_at
  cases hy : ys[k]? with
  | none =>
    have hx : xs[k]? = none := by
      have hk := h k
      rw [hy] at hk
      cases hx : xs[k]? with
      | none => rfl
      | some u => rw [hx] at hk; simp at hk
    rw [hx]
  | some t =>
    rcases frame_eq_elim h hy with ⟨u, hu, -, -, hbb, -⟩
    rw [hu]
    dsimp only
    rw [hbb]

theorem resolvable_of_frame_eq {lookup : String → Option Nat}
    {xs ys : List TableInfo} (h : frame_eq xs ys)
    (hres : resolvable lookup xs) : resolvable lookup ys := by
  unfold resolvable at hres ⊢
  intro k t pid ht hpid
  rcases frame_eq_elim h ht with ⟨u, hu, -, -, hbb, hpar⟩
  rcases hres k u pid hu (hpar.trans hpid) with ⟨pi, p, hl, hp, harea⟩
  have hk := h pi
  rw [hp] at hk
  cases hy : ys[pi]? with
  | none => rw [hy] at hk; simp at hk
  | some q =>
    rw [hy] at hk
    have hk2 : frame_of p = frame_of q := by simpa using hk
    unfold frame_of at hk2
    simp only [Prod.mk.injEq] at hk2
    exact ⟨pi, q, hl, hy, by rw [← hbb, ← hk2.2.2.1]; exact harea⟩

/-- Setting only the `nesting_level` of an in-range entry preserves frames. -/
theorem frame_eq_set_level {ts : List TableInfo} {k : Nat} {t : TableInfo}
    (ht : ts[k]? = some t) (m : Nat) :
    frame_eq ts (ts.set k { t with nesting_level := m }) := by
  intro j
  rw [List.getElem?_set]
  by_cases hkj : k = j
  · subst hkj
    have hk : k < ts.length := by
      rcases List.getElem?_eq_some.mp ht with ⟨h', -⟩
      exact h'
    rw [if_pos rfl, if_pos hk, ht]
    rfl
  · rw [if_neg hkj]

/-! ### Depth of a parent chain

Because a child's area is strictly smaller than its parent's, parent chains
strictly increase in area, hence are finite; their length is the depth used to
bound the fixpoint pass count. -/

/-- Number of entries with strictly larger area than the entry at `k`. -/
def rank_of (ts : List TableInfo) (k : Nat) : Nat :=
  ((Finset.range ts.length).filter (fun j => area_at ts k < area_at ts j)).card

/-- Chain length above `k` following resolved parents, with explicit fuel. -/
def depth_fuel (lookup : String → Option Nat) (ts : List TableInfo) :
    Nat → Nat → Nat
  | 0, _ => 0
  | f + 1, k =>
    match parent_idx lookup ts k with
    | none => 0
    | some pi => depth_fuel lookup ts f pi + 1

/-- Chain length above `k`; `ts.length` fuel always suffices (proven below). -/
def depth (lookup : String → Option Nat) (ts : List TableInfo) (k : Nat) : Nat :=
  depth_fuel lookup ts ts.length k

section Depth

variable {lookup : String → Option Nat} {ts : List TableInfo}

/-- A resolved parent is in range and has strictly larger area. -/
theorem parent_idx_area (hres : resolvable lookup ts) {k pi : Nat}
    (hp : parent_idx lookup ts k = some pi) :
    pi < ts.length ∧ area_at ts k < area_at ts pi := by
  unfold parent_idx at hp
  cases ht : ts[k]? with
  | none => rw [ht] at hp; simp at hp
  | some t =>
    rw [ht] at hp
    dsimp only at hp
    cases hpar : t.parent_id with
    | none => rw [hpar] at hp; simp at hp
    | some pid =>
      rw [hpar] at hp
      dsimp only at hp
      rcases hres k t pid ht hpar with ⟨pi', p, hl, hp', harea⟩
      rw [hl] at hp
      cases hp
      refine ⟨?_, ?_⟩
      · exact (List.getElem?_eq_some.mp hp').1
      · unfold area_at
        rw [ht, hp']
        exact harea

theorem rank_lt_of_parent (hres : resolvable lookup ts) {k pi : Nat}
    (hp : parent_idx lookup ts k = some pi) :
    rank_of ts pi < rank_of ts k := by
  rcases parent_idx_area hres hp with ⟨hpilen, harea⟩
  unfold rank_of
  apply Finset.card_lt_card
  constructor
  · intro j hj
    simp only [Finset.mem_filter, Finset.mem_range] at hj ⊢
    exact ⟨hj.1, lt_trans harea hj.2⟩
  · intro hsub
    have hmem : pi ∈ (Finset.range ts.length).filter
        (fun j => area_at ts k < area_at ts j) := by
      simp only [Finset.mem_filter, Finset.mem_range]
      exact ⟨hpilen, harea⟩
    have := hsub hmem
    simp only [Finset.mem_filter, Finset.mem_range] at this
    exact absurd this.2 (lt_irrefl _)

theorem rank_lt_length {k : Nat} (hk : k < ts.length) :
    rank_of ts k < ts.length := by
  unfold rank_of
  have hnotmem : k ∉ (Finset.range ts.length).filter
      (fun j => area_at ts k < area_at ts j) := by
    simp only [Finset.mem_filter, Finset.mem_range]
    rintro ⟨-, h⟩
    exact absurd h (lt_irrefl _)
  calc ((Finset.range ts.length).filter
        (fun j => area_at ts k < area_at ts j)).card
      ≤ ((Finset.range ts.length).erase k).card :=
        Finset.card_le_card (fun j hj => Finset.mem_erase.mpr
          ⟨fun hjk => hnotmem (hjk ▸ hj), Finset.filter_subset _ _ hj⟩)
    _ < ts.length := by
        rw [Finset.card_erase_of_mem (Finset.mem_range.mpr hk), Finset.card_range]
        omega

/-- Fuel above `rank_of` does not change `depth_fuel`. -/
theorem depth_fuel_stable (hres : resolvable lookup ts) :
    ∀ (f : Nat) (k : Nat), rank_of ts k < f →
      depth_fuel lookup ts (f + 1) k = depth_fuel lookup ts f k := by
  intro f
  induction f with
  | zero => intro k hk; omega
  | succ g ih =>
    intro k hk
    show (match parent_idx lookup ts k with
      | none => 0
      | some pi => depth_fuel lookup ts (g + 1) pi + 1) =
      (match parent_idx lookup ts k with
      | none => 0
      | some pi => depth_fuel lookup ts g pi + 1)
    cases hp : parent_idx lookup ts k with
    | none => rfl
    | some pi =>
      have hlt := rank_lt_of_parent hres hp
      dsimp only
      rw [ih pi (by omega)]

theorem depth_fuel_of_le (hres : resolvable lookup ts) :
    ∀ (f g : Nat) (k : Nat), rank_of ts k < f → f ≤ g →
      depth_fuel lookup ts g k = depth_fuel lookup ts f k := by
  intro f g k hf hfg
  induction g with
  | zero => omega
  | succ g' ih =>
    rcases Nat.eq_or_lt_of_le hfg with he | hl
    · rw [he]
    · have hfg' : f ≤ g' := by omega
      have hr : rank_of ts k < g' := by omega
      rw [depth_fuel_stable hres g' k hr]
      exact ih hfg'

/-- Depth steps down the chain: `depth k = depth parent + 1`. -/
theorem depth_parent (hres : resolvable lookup ts) {k pi : Nat}
    (hp : parent_idx lookup ts k = some pi) :
    depth lookup ts k = depth lookup ts pi + 1 := by
  have hkrange : k < ts.length := by
    unfold parent_idx at hp
    cases ht : ts[k]? with
    | none => rw [ht] at hp; simp at hp
    | some t => exact (List.getElem?_eq_some.mp ht).1
  have hrk := rank_lt_length hkrange
  have hrpi := rank_lt_of_parent hres hp
  have h1 : depth lookup ts k = depth_fuel lookup ts (rank_of ts k + 1) k :=
    depth_fuel_of_le hres (rank_of ts k + 1) ts.length k (by omega) (by omega)
  rw [h1]
  show (match parent_idx lookup ts k with
    | none => 0
    | some pi => depth_fuel lookup ts (rank_of ts k) pi + 1) = _
  rw [hp]
  dsimp only
  congr 1
  exact (depth_fuel_of_le hres (rank_of ts pi + 1) (rank_of ts k) pi
      (by omega) (by omega)).trans
    (depth_fuel_of_le hres (rank_of ts pi + 1) ts.length pi
      (by omega) (by omega)).symm

/-- Entries without a resolved parent have depth 0. -/
theorem depth_of_no_parent {k : Nat}
    (hp : parent_idx lookup ts k = none) : depth lookup ts k = 0 := by
  unfold depth
  cases hn : ts.length with
  | zero => rfl
  | succ m =>
    show (match parent_idx lookup ts k with
      | none => 0
      | some pi => depth_fuel lookup ts m pi + 1) = 0
    rw [hp]

theorem depth_le_rank (hres : resolvable lookup ts) (k : Nat) :
    depth lookup ts k ≤ rank_of ts k := by
  generalize hr : rank_of ts k = r
  induction r using Nat.strong_induction_on generalizing k with
  | _ r ih =>
    cases hp : parent_idx lookup ts k with
    | none => rw [depth_of_no_parent hp]; omega
    | some pi =>
      have hlt := rank_lt_of_parent hres hp
      rw [hr] at hlt
      have hpi := ih (rank_of ts pi) hlt pi rfl
      rw [depth_parent hres hp]
      omega

/-- Depth only depends on the frame fields, hence is invariant across the
fixpoint passes. -/
theorem depth_congr {xs ys : List TableInfo} (h : frame_eq xs ys)
    (lookup : String → Option Nat) (k : Nat) :
    depth lookup xs k = depth lookup ys k := by
  have hlen := frame_eq_length h
  unfold depth
  rw [hlen]
  generalize ys.length = f
  induction f generalizing k with
  | zero => rfl
  | succ g ih =>
    show (match parent_idx lookup xs k with
      | none => 0
      | some pi => depth_fuel lookup xs g pi + 1) =
      (match parent_idx lookup ys k with
      | none => 0
      | some pi => depth_fuel lookup ys g pi + 1)
    rw [parent_idx_congr h k]
    cases parent_idx lookup ys k with
    | none => rfl
    | some pi => dsimp only; rw [ih pi]

end Depth

/-! ### Behaviour of one body execution and of one full pass -/

theorem level_at_set {ts : List TableInfo} {k : Nat} {t : TableInfo}
    (ht : ts[k]? = some t) (m : Nat) (j : Nat) :
    level_at (ts.set k { t with nesting_level := m }) j =
      if j = k then m else level_at ts j := by
  unfold level_at
  rw [List.getElem?_set]
  have hk : k < ts.length := (List.getElem?_eq_some.mp ht).1
  by_cases hjk : j = k
  · subst hjk
    rw [if_pos rfl, if_pos hk, if_pos rfl]
  · rw [if_neg (fun h => hjk h.symm), if_neg hjk]

/-- Complete case analysis of `pass_step` on a state with resolvable parents. -/
theorem pass_step_detail (lookup : String → Option Nat) (ts : List TableInfo)
    (c : Bool) (k : Nat) (hres : resolvable lookup ts) :
    (parent_idx lookup ts k = none ∧ pass_step lookup (ts, c) k = some (ts, c)) ∨
    (∃ pi, parent_idx lookup ts k = some pi ∧
      ((level_at ts k ≤ level_at ts pi ∧
        ∃ t, ts[k]? = some t ∧
          pass_step lookup (ts, c) k =
            some (ts.set k { t with nesting_level := level_at ts pi + 1 }, true)) ∨
       (level_at ts pi < level_at ts k ∧
        pass_step lookup (ts, c) k = some (ts, c)))) := by
  unfold pass_step parent_idx
  cases ht : ts[k]? with
  | none => exact Or.inl ⟨rfl, rfl⟩
  | some t =>
    dsimp only
    cases hpar : t.parent_id with
    | none => exact Or.inl ⟨rfl, rfl⟩
    | some pid =>
      dsimp only
      rcases hres k t pid ht hpar with ⟨pi, p, hl, hp, -⟩
      rw [hl]
      refine Or.inr ⟨pi, rfl, ?_⟩
      dsimp only
      rw [hp]
      dsimp only
      have hlk : level_at ts k = t.nesting_level := by unfold level_at; rw [ht]
      have hlpi : level_at ts pi = p.nesting_level := by unfold level_at; rw [hp]
      by_cases hle : t.nesting_level ≤ p.nesting_level
      · rw [if_pos hle]
        refine Or.inl ⟨by rw [hlk, hlpi]; exact hle, t, rfl, ?_⟩
        rw [hlpi, hpar]
      · rw [if_neg hle]
        exact Or.inr ⟨by rw [hlk, hlpi]; omega, rfl⟩

/-- The fold step of `one_pass`. -/
def pass_fold_step (lookup : String → Option Nat)
    (acc : Option (List TableInfo × Bool)) (k : Nat) :
    Option (List TableInfo × Bool) :=
  match acc with
  | none => none
  | some st => pass_step lookup st k

theorem one_pass_eq_fold (lookup : String → Option Nat) (ts : List TableInfo) :
    one_pass lookup ts =
      (List.range ts.length).foldl (pass_fold_step lookup) (some (ts, false)) := rfl

theorem pass_fold_none (lookup : String → Option Nat) (idxs : List Nat) :
    idxs.foldl (pass_fold_step lookup) none = none := by
  induction idxs with
  | nil => rfl
  | cons k rest ih => exact ih

/-- `changed` is never reset inside a pass. -/
theorem pass_step_true (lookup : String → Option Nat) {ts : List TableInfo}
    {k : Nat} {st' : List TableInfo × Bool}
    (h : pass_step lookup (ts, true) k = some st') : st'.2 = true := by
  unfold pass_step at h
  dsimp only at h
  cases ht : ts[k]? with
  | none => rw [ht] at h; cases h; rfl
  | some t =>
    rw [ht] at h
    dsimp only at h
    cases hpar : t.parent_id with
    | none => rw [hpar] at h; cases h; rfl
    | some pid =>
      rw [hpar] at h
      dsimp only at h
      cases hl : lookup pid with
      | none => rw [hl] at h; cases h
      | some pi =>
        rw [hl] at h
        dsimp only at h
        cases hp : ts[pi]? with
        | none => rw [hp] at h; cases h
        | some p =>
          rw [hp] at h
          dsimp only at h
          by_cases hle : t.nesting_level ≤ p.nesting_level
          · rw [if_pos hle] at h; cases h; rfl
          · rw [if_neg hle] at h; cases h; rfl

theorem pass_fold_true (lookup : String → Option Nat) (idxs : List Nat) :
    ∀ (ts : List TableInfo) (st' : List TableInfo × Bool),
      idxs.foldl (pass_fold_step lookup) (some (ts, true)) = some st' →
      st'.2 = true := by
  induction idxs with
  | nil => intro ts st' h; cases h; rfl
  | cons k rest ih =>
    intro ts st' h
    rw [List.foldl_cons] at h
    cases hstep : pass_step lookup (ts, true) k with
    | none =>
      rw [show pass_fold_step lookup (some (ts, true)) k = none from hstep] at h
      rw [pass_fold_none] at h
      cases h
    | some st1 =>
      rw [show pass_fold_step lookup (some (ts, true)) k = some st1 from hstep] at h
      have h1 := pass_step_true lookup hstep
      rcases st1 with ⟨ts1, c1⟩
      cases h1
      exact ih ts1 st' h

section PassInvariant

variable {lookup : String → Option Nat} {bs : List TableInfo}

/-- Invariant carried across the fixpoint passes: frames are those of the base
state `bs`, levels are bounded by chain depth, and after `p` passes every level
is at least `min p depth`. -/
def pass_inv (lookup : String → Option Nat) (bs : List TableInfo) (p : Nat)
    (ts : List TableInfo) : Prop :=
  frame_eq bs ts ∧
    (∀ j : Nat, level_at ts j ≤ depth lookup bs j) ∧
    (∀ j : Nat, min p (depth lookup bs j) ≤ level_at ts j)

/-- Inner induction for one pass: folding any index list preserves the
invariant, raises every processed index to the `p+1` bound, and never lowers
a level. -/
theorem pass_fold_inv (hres : resolvable lookup bs)
    (p : Nat) (idxs : List Nat) :
    ∀ (ts : List TableInfo) (c : Bool), frame_eq bs ts →
      (∀ j : Nat, level_at ts j ≤ depth lookup bs j) →
      (∀ j : Nat, min p (depth lookup bs j) ≤ level_at ts j) →
      ∃ ts' c', idxs.foldl (pass_fold_step lookup) (some (ts, c)) = some (ts', c') ∧
        frame_eq bs ts' ∧
        (∀ j : Nat, level_at ts' j ≤ depth lookup bs j) ∧
        (∀ j : Nat, min p (depth lookup bs j) ≤ level_at ts' j) ∧
        (∀ j : Nat, level_at ts j ≤ level_at ts' j) ∧
        (∀ k ∈ idxs, min (p + 1) (depth lookup bs k) ≤ level_at ts' k) := by
  induction idxs with
  | nil =>
    intro ts c hframe hup hlow
    exact ⟨ts, c, rfl, hframe, hup, hlow, fun j => le_refl _, by simp⟩
  | cons k rest ih =>
    intro ts c hframe hup hlow
    have hres' : resolvable lookup ts := resolvable_of_frame_eq hframe hres
    rcases pass_step_detail lookup ts c k hres' with
      ⟨hpnone, hstep⟩ | ⟨pi, hpsome, hcase⟩
    · -- no parent: depth is 0, nothing changes
      have hdep : depth lookup bs k = 0 := by
        apply depth_of_no_parent
        rw [parent_idx_congr hframe k]
        exact hpnone
      rcases ih ts c hframe hup hlow with
        ⟨ts', c', hfold, hframe', hup', hlow', hmono', hproc'⟩
      refine ⟨ts', c', ?_, hframe', hup', hlow', hmono', ?_⟩
      · rw [List.foldl_cons,
          show pass_fold_step lookup (some (ts, c)) k = some (ts, c) from hstep]
        exact hfold
      · intro k' hk'
        rcases List.mem_cons.mp hk' with he | hm
        · subst he; rw [hdep]; simp
        · exact hproc' k' hm
    · have hpibs : parent_idx lookup bs k = some pi := by
        rw [parent_idx_congr hframe k]; exact hpsome
      have hdepk : depth lookup bs k = depth lookup bs pi + 1 :=
        depth_parent hres hpibs
      rcases hcase with ⟨hle, t, ht, hstep⟩ | ⟨hgt, hstep⟩
      · -- update branch
        set m := level_at ts pi + 1 with hm
        set ts1 := ts.set k { t with nesting_level := m } with hts1
        have hframe1 : frame_eq bs ts1 := frame_eq_trans hframe (frame_eq_set_level ht m)
        have hlev1 : ∀ j : Nat, level_at ts1 j = if j = k then m else level_at ts j :=
          level_at_set ht m
        have hup1 : ∀ j : Nat, level_at ts1 j ≤ depth lookup bs j := by
          intro j
          rw [hlev1 j]
          by_cases hj : j = k
          · subst hj
            rw [if_pos rfl, hdepk, hm]
            have := hup pi
            omega
          · rw [if_neg hj]; exact hup j
        have hlow1 : ∀ j : Nat, min p (depth lookup bs j) ≤ level_at ts1 j := by
          intro j
          rw [hlev1 j]
          by_cases hj : j = k
          · subst hj
            rw [if_pos rfl, hm]
            have := hlow pi
            omega
          · rw [if_neg hj]; exact hlow j
        have hmono1 : ∀ j : Nat, level_at ts j ≤ level_at ts1 j := by
          intro j
          rw [hlev1 j]
          by_cases hj : j = k
          · subst hj; rw [if_pos rfl, hm]; omega
          · rw [if_neg hj]
        have hbound1 : min (p + 1) (depth lookup bs k) ≤ level_at ts1 k := by
          rw [hlev1 k, if_pos rfl, hm, hdepk]
          have := hlow pi
          omega
        rcases ih ts1 true hframe1 hup1 hlow1 with
          ⟨ts', c', hfold, hframe', hup', hlow', hmono', hproc'⟩
        refine ⟨ts', c', ?_, hframe', hup', hlow',
          fun j => le_trans (hmono1 j) (hmono' j), ?_⟩
        · rw [List.foldl_cons,
            show pass_fold_step lookup (some (ts, c)) k = some (ts1, true) from hstep]
          exact hfold
        · intro k' hk'
          rcases List.mem_cons.mp hk' with he | hm'
          · subst he; exact le_trans hbound1 (hmono' k')
          · exact hproc' k' hm'
      · -- level already exceeds the parent's: no update
        have hbound : min (p + 1) (depth lookup bs k) ≤ level_at ts k := by
          rw [hdepk]
          have := hlow pi
          omega
        rcases ih ts c hframe hup hlow with
          ⟨ts', c', hfold, hframe', hup', hlow', hmono', hproc'⟩
        refine ⟨ts', c', ?_, hframe', hup', hlow', hmono', ?_⟩
        · rw [List.foldl_cons,
            show pass_fold_step lookup (some (ts, c)) k = some (ts, c) from hstep]
          exact hfold
        · intro k' hk'
          rcases List.mem_cons.mp hk' with he | hm'
          · subst he; exact le_trans hbound (hmono' k')
          · exact hproc' k' hm'

/-- One full pass advances the `min p` lower bound to `min (p+1)`. -/
theorem one_pass_inv (hres : resolvable lookup bs) {p : Nat}
    {ts : List TableInfo} (hinv : pass_inv lookup bs p ts) :
    ∃ ts' c, one_pass lookup ts = some (ts', c) ∧
      pass_inv lookup bs (p + 1) ts' := by
  rcases hinv with ⟨hframe, hup, hlow⟩
  rcases pass_fold_inv hres p (List.range ts.length) ts false hframe hup hlow with
    ⟨ts', c', hfold, hframe', hup', hlow', -, hproc'⟩
  refine ⟨ts', c', by rw [one_pass_eq_fold]; exact hfold, hframe', hup', ?_⟩
  intro j
  by_cases hj : j < ts.length
  · exact hproc' j (List.mem_range.mpr hj)
  · have hlen : bs.length = ts.length := frame_eq_length hframe
    have hnone : bs[j]? = none := by
      rw [List.getElem?_eq_none_iff]
      omega
    have hdep : depth lookup bs j = 0 := by
      apply depth_of_no_parent
      unfold parent_idx
      rw [hnone]
    rw [hdep]
    simp

end PassInvariant

section Fixpoint

variable {lookup : String → Option Nat}

/-- At index `k` the pass body would do nothing: the entry's parent (if any)
resolves and already has a strictly smaller level. -/
def no_op_at (lookup : String → Option Nat) (ts : List TableInfo) (k : Nat) :
    Prop :=
  ∀ (t : TableInfo) (pid : String), ts[k]? = some t → t.parent_id = some pid →
    ∃ pi p, lookup pid = some pi ∧ ts[pi]? = some p ∧
      p.nesting_level < t.nesting_level

/-- A single no-op body execution, characterised. -/
theorem pass_step_false {ts ts' : List TableInfo} {k : Nat}
    (h : pass_step lookup (ts, false) k = some (ts', false)) :
    ts' = ts ∧ no_op_at lookup ts k := by
  unfold pass_step at h
  dsimp only at h
  cases ht : ts[k]? with
  | none =>
    rw [ht] at h
    cases h
    exact ⟨rfl, fun t pid ht' _ => by rw [ht] at ht'; cases ht'⟩
  | some t =>
    rw [ht] at h
    dsimp only at h
    cases hpar : t.parent_id with
    | none =>
      rw [hpar] at h
      cases h
      refine ⟨rfl, fun t' pid ht' hpar' => ?_⟩
      rw [ht] at ht'
      cases ht'
      rw [hpar] at hpar'
      cases hpar'
    | some pid =>
      rw [hpar] at h
      dsimp only at h
      cases hl : lookup pid with
      | none => rw [hl] at h; cases h
      | some pi =>
        rw [hl] at h
        dsimp only at h
        cases hp : ts[pi]? with
        | none => rw [hp] at h; cases h
        | some p =>
          rw [hp] at h
          dsimp only at h
          by_cases hle : t.nesting_level ≤ p.nesting_level
          · rw [if_pos hle] at h; cases h
          · rw [if_neg hle] at h
            cases h
            refine ⟨rfl, fun t' pid' ht' hpar' => ?_⟩
            rw [ht] at ht'
            cases ht'
            rw [hpar] at hpar'
            cases hpar'
            exact ⟨pi, p, hl, hp, by omega⟩

/-- Forward direction: a pass that reports no change left the state intact and
every index was a no-op. -/
theorem pass_fold_false (idxs : List Nat) :
    ∀ (ts ts' : List TableInfo),
      idxs.foldl (pass_fold_step lookup) (some (ts, false)) = some (ts', false) →
      ts' = ts ∧ ∀ k ∈ idxs, no_op_at lookup ts k := by
  induction idxs with
  | nil =>
    intro ts ts' h
    cases h
    exact ⟨rfl, by simp⟩
  | cons k rest ih =>
    intro ts ts' h
    rw [List.foldl_cons] at h
    cases hstep : pass_step lookup (ts, false) k with
    | none =>
      rw [show pass_fold_step lookup (some (ts, false)) k = none from hstep,
        pass_fold_none] at h
      cases h
    | some st1 =>
      rcases st1 with ⟨ts1, c1⟩
      rw [show pass_fold_step lookup (some (ts, false)) k = some (ts1, c1)
        from hstep] at h
      cases c1 with
      | true =>
        have := pass_fold_true lookup rest ts1 (ts', false) h
        simp at this
      | false =>
        rcases pass_step_false hstep with ⟨he, hno⟩
        subst he
        rcases ih _ _ h with ⟨he', hall⟩
        exact ⟨he', fun k' hk' => by
          rcases List.mem_cons.mp hk' with h' | h'
          · subst h'; exact hno
          · exact hall k' h'⟩

theorem one_pass_false {ts ts' : List TableInfo}
    (h : one_pass lookup ts = some (ts', false)) :
    ts' = ts ∧ ∀ k : Nat, no_op_at lookup ts k := by
  rw [one_pass_eq_fold] at h
  rcases pass_fold_false (List.range ts.length) ts ts' h with ⟨he, hall⟩
  refine ⟨he, fun k => ?_⟩
  by_cases hk : k < ts.length
  · exact hall k (List.mem_range.mpr hk)
  · intro t pid ht hpar
    rw [List.getElem?_eq_none_iff.mpr (by omega)] at ht
    cases ht

/-- Converse: if every index is a no-op, the pass returns the state unchanged
with `changed = False`. -/
theorem pass_fold_no_op (idxs : List Nat) {ts : List TableInfo}
    (hno : ∀ k ∈ idxs, no_op_at lookup ts k) :
    idxs.foldl (pass_fold_step lookup) (some (ts, false)) = some (ts, false) := by
  induction idxs with
  | nil => rfl
  | cons k rest ih =>
    rw [List.foldl_cons]
    have hstep : pass_step lookup (ts, false) k = some (ts, false) := by
      unfold pass_step
      dsimp only
      cases ht : ts[k]? with
      | none => rfl
      | some t =>
        dsimp only
        cases hpar : t.parent_id with
        | none => rfl
        | some pid =>
          dsimp only
          rcases hno k (List.mem_cons_self k rest) t pid ht hpar with
            ⟨pi, p, hl, hp, hlt⟩
          rw [hl]
          dsimp only
          rw [hp]
          dsimp only
          rw [if_neg (by omega)]
    rw [show pass_fold_step lookup (some (ts, false)) k = some (ts, false)
      from hstep]
    exact ih (fun k' hk' => hno k' (List.mem_cons_of_mem k hk'))

theorem one_pass_no_op {ts : List TableInfo}
    (hno : ∀ k : Nat, no_op_at lookup ts k) :
    one_pass lookup ts = some (ts, false) := by
  rw [one_pass_eq_fold]
  exact pass_fold_no_op (List.range ts.length) (fun k _ => hno k)

/-- A fixed state stays fixed under further passes. -/
theorem iterate_passes_fix {ts : List TableInfo}
    (h : one_pass lookup ts = some (ts, false)) (r : Nat) :
    iterate_passes lookup r ts = some ts := by
  induction r with
  | zero => rfl
  | succ r' ih =>
    show (match one_pass lookup ts with
      | none => none
      | some (ts', _) => iterate_passes lookup r' ts') = some ts
    rw [h]
    exact ih

/-- `run_loop` with enough fuel lands exactly on the state that `m` straight
passes produce, provided that state is a fixpoint. -/
theorem run_loop_eq_of_fix :
    ∀ (m : Nat) (ts tsm : List TableInfo),
      iterate_passes lookup m ts = some tsm →
      one_pass lookup tsm = some (tsm, false) →
      run_loop lookup (m + 1) ts = some tsm := by
  intro m
  induction m with
  | zero =>
    intro ts tsm hit hfix
    cases hit
    show (match one_pass lookup ts with
      | none => none
      | some (ts', false) => some ts'
      | some (ts', true) => run_loop lookup 0 ts') = some ts
    rw [hfix]
  | succ m' ih =>
    intro ts tsm hit hfix
    have hit' : (match one_pass lookup ts with
      | none => none
      | some (ts', _) => iterate_passes lookup m' ts') = some tsm := hit
    cases hp : one_pass lookup ts with
    | none => rw [hp] at hit'; cases hit'
    | some st1 =>
      rcases st1 with ⟨ts1, c1⟩
      rw [hp] at hit'
      dsimp only at hit'
      show (match one_pass lookup ts with
        | none => none
        | some (ts', false) => some ts'
        | some (ts', true) => run_loop lookup (m' + 1) ts') = some tsm
      rw [hp]
      cases c1 with
      | true => exact ih ts1 tsm hit' hfix
      | false =>
        dsimp only
        rcases one_pass_false hp with ⟨he, -⟩
        subst he
        have hiter := iterate_passes_fix hp m'
        rw [hiter] at hit'
        cases hit'
        rfl

end Fixpoint

section Reaches

variable {lookup : String → Option Nat} {bs : List TableInfo}

theorem iterate_passes_succ_back (lookup : String → Option Nat) :
    ∀ (p : Nat) (ts : List TableInfo),
      iterate_passes lookup (p + 1) ts =
        match iterate_passes lookup p ts with
        | none => none
        | some u =>
          match one_pass lookup u with
          | none => none
          | some (u', _) => some u' := by
  intro p
  induction p with
  | zero =>
    intro ts
    have h0 : iterate_passes lookup 0 ts = some ts := rfl
    rw [h0]
    show (match one_pass lookup ts with
      | none => none
      | some (ts', _) => iterate_passes lookup 0 ts') =
      (match one_pass lookup ts with
      | none => none
      | some (u', _) => some u')
    cases one_pass lookup ts with
    | none => rfl
    | some st => rcases st with ⟨u', c⟩; rfl
  | succ p' ih =>
    intro ts
    show (match one_pass lookup ts with
      | none => none
      | some (ts', _) => iterate_passes lookup (p' + 1) ts') = _
    cases hp : one_pass lookup ts with
    | none =>
      have : iterate_passes lookup (p' + 1) ts = none := by
        show (match one_pass lookup ts with
          | none => none
          | some (ts', _) => iterate_passes lookup p' ts') = none
        rw [hp]
      rw [this]
    | some st =>
      rcases st with ⟨u1, c1⟩
      dsimp only
      rw [ih u1]
      have : iterate_passes lookup (p' + 1) ts = iterate_passes lookup p' u1 := by
        show (match one_pass lookup ts with
          | none => none
          | some (ts', _) => iterate_passes lookup p' ts') = _
        rw [hp]
      rw [this]

/-- Starting from an all-zero-level resolvable state, `length` passes reach
the unique fixpoint, where every level equals the parent-chain depth. -/
theorem iterate_reaches_fix (hres : resolvable lookup bs)
    (hzero : ∀ j : Nat, level_at bs j = 0) :
    ∃ out, iterate_passes lookup bs.length bs = some out ∧
      one_pass lookup out = some (out, false) ∧ frame_eq bs out ∧
      (∀ j : Nat, level_at out j = depth lookup bs j) := by
  have hstep : ∀ p : Nat, ∃ tsp, iterate_passes lookup p bs = some tsp ∧
      pass_inv lookup bs p tsp := by
    intro p
    induction p with
    | zero =>
      exact ⟨bs, rfl, frame_eq_refl bs,
        fun j => by rw [hzero j]; omega,
        fun j => by rw [hzero j]; omega⟩
    | succ p' ih =>
      rcases ih with ⟨tsp, hit, hinv⟩
      rcases one_pass_inv hres hinv with ⟨ts', c, hop, hinv'⟩
      refine ⟨ts', ?_, hinv'⟩
      rw [iterate_passes_succ_back, hit]
      dsimp only
      rw [hop]
  rcases hstep bs.length with ⟨out, hit, hframe, hup, hlow⟩
  have hlev : ∀ j : Nat, level_at out j = depth lookup bs j := by
    intro j
    by_cases hj : j < bs.length
    · have h1 := hup j
      have h2 := hlow j
      have h3 : depth lookup bs j ≤ rank_of bs j := depth_le_rank hres j
      have h4 : rank_of bs j < bs.length := rank_lt_length hj
      omega
    · have hlen := frame_eq_length hframe
      have hnone : out[j]? = none := List.getElem?_eq_none_iff.mpr (by omega)
      have hnone' : bs[j]? = none := List.getElem?_eq_none_iff.mpr (by omega)
      have hd : depth lookup bs j = 0 := by
        apply depth_of_no_parent
        unfold parent_idx
        rw [hnone']
      rw [hd]
      unfold level_at
      rw [hnone]
  have hno : ∀ k : Nat, no_op_at lookup out k := by
    intro k t pid ht hpar
    have hres' : resolvable lookup out := resolvable_of_frame_eq hframe hres
    rcases hres' k t pid ht hpar with ⟨pi, p, hl, hp, -⟩
    refine ⟨pi, p, hl, hp, ?_⟩
    have hpidx : parent_idx lookup out k = some pi := by
      unfold parent_idx
      rw [ht]
      dsimp only
      rw [hpar]
      exact hl
    have hpbs : parent_idx lookup bs k = some pi := by
      rw [parent_idx_congr hframe k]
      exact hpidx
    have hdk : depth lookup bs k = depth lookup bs pi + 1 := depth_parent hres hpbs
    have h1 : level_at out k = t.nesting_level := by unfold level_at; rw [ht]
    have h2 : level_at out pi = p.nesting_level := by unfold level_at; rw [hp]
    have h3 := hlev k
    have h4 := hlev pi
    omega
  exact ⟨out, hit, one_pass_no_op hno, hframe, hlev⟩

end Reaches

/-! ### `init_levels` and `table_id_to_index` -/

theorem init_levels_getElem (ts : List TableInfo) (k : Nat) :
    (init_levels ts)[k]? = (ts[k]?).map (fun t => { t with nesting_level := 0 }) := by
  unfold init_levels
  rw [List.getElem?_map]

theorem init_levels_length (ts : List TableInfo) :
    (init_levels ts).length = ts.length := by
  unfold init_levels
  rw [List.length_map]

theorem level_at_init (ts : List TableInfo) (j : Nat) :
    level_at (init_levels ts) j = 0 := by
  unfold level_at
  rw [init_levels_getElem]
  cases ts[j]? with
  | none => rfl
  | some t => rfl

/-- Partial fold used by `table_id_to_index`, for induction on the range. -/
def id_fold (ts : List TableInfo) (tid : String) (m : Nat) : Option Nat :=
  (List.range m).foldl
    (fun acc k =>
      match ts[k]? with
      | some t => if t.table_id = tid then some k else acc
      | none => acc) none

theorem table_id_to_index_eq_fold (ts : List TableInfo) (tid : String) :
    table_id_to_index ts tid = id_fold ts tid ts.length := rfl

theorem id_fold_succ (ts : List TableInfo) (tid : String) (m : Nat) :
    id_fold ts tid (m + 1) =
      match ts[m]? with
      | some t => if t.table_id = tid then some m else id_fold ts tid m
      | none => id_fold ts tid m := by
  unfold id_fold
  rw [List.range_succ, List.foldl_append, List.foldl_cons, List.foldl_nil]

theorem id_fold_sound (ts : List TableInfo) (tid : String) :
    ∀ (m j : Nat), id_fold ts tid m = some j →
      ∃ t, ts[j]? = some t ∧ t.table_id = tid := by
  intro m
  induction m with
  | zero => intro j h; cases h
  | succ m' ih =>
    intro j h
    rw [id_fold_succ] at h
    cases ht : ts[m']? with
    | none => rw [ht] at h; exact ih j h
    | some t =>
      rw [ht] at h
      dsimp only at h
      by_cases he : t.table_id = tid
      · rw [if_pos he] at h
        cases h
        exact ⟨t, ht, he⟩
      · rw [if_neg he] at h
        exact ih j h

theorem id_fold_complete (ts : List TableInfo) (tid : String) :
    ∀ (m j : Nat) (t : TableInfo), j < m → ts[j]? = some t → t.table_id = tid →
      ∃ i, id_fold ts tid m = some i := by
  intro m
  induction m with
  | zero => intro j t h; omega
  | succ m' ih =>
    intro j t hj ht htid
    rw [id_fold_succ]
    rcases Nat.lt_or_ge j m' with h | h
    · rcases ih j t h ht htid with ⟨i, hi⟩
      rw [hi]
      cases hm : ts[m']? with
      | none => exact ⟨i, rfl⟩
      | some u =>
        dsimp only
        by_cases he : u.table_id = tid
        · rw [if_pos he]; exact ⟨m', rfl⟩
        · rw [if_neg he]; exact ⟨i, rfl⟩
    · have : j = m' := by omega
      subst this
      rw [ht]
      dsimp only
      rw [if_pos htid]
      exact ⟨j, rfl⟩

/-- With `Nodup` ids, `table_id_to_index` inverts `getElem?` on ids. -/
theorem table_id_to_index_of_nodup {ts : List TableInfo}
    (hnd : (ts.map (·.table_id)).Nodup) {j : Nat} {t : TableInfo}
    (ht : ts[j]? = some t) :
    table_id_to_index ts t.table_id = some j := by
  have hj : j < ts.length := (List.getElem?_eq_some.mp ht).1
  rcases id_fold_complete ts t.table_id ts.length j t hj ht rfl with ⟨i, hi⟩
  rcases id_fold_sound ts t.table_id ts.length i hi with ⟨u, hu, hutid⟩
  have hij : i = j := by
    have hi' : i < ts.length := (List.getElem?_eq_some.mp hu).1
    have h1 : (ts.map (·.table_id))[i]? = some u.table_id := by
      rw [List.getElem?_map, hu]; rfl
    have h2 : (ts.map (·.table_id))[j]? = some t.table_id := by
      rw [List.getElem?_map, ht]; rfl
    rw [hutid] at h1
    have hlen : (ts.map (·.table_id)).length = ts.length := List.length_map ..
    rcases Nat.lt_trichotomy i j with h | h | h
    · exact absurd (h1.trans h2.symm)
        (List.nodup_iff_getElem?_ne_getElem?.mp hnd i j h (by omega))
    · exact h
    · exact absurd (h2.trans h1.symm)
        (List.nodup_iff_getElem?_ne_getElem?.mp hnd j i h (by omega))
  rw [table_id_to_index_eq_fold, hi, hij]

/-! ### The parent-assignment phase -/

/-- Invariant of the double loop: skeleton fields match the input, and every
written `parent_id` names a distinct input region that geometrically contains
the child. -/
def assign_inv (orig cur : List TableInfo) : Prop :=
  (∀ k : Nat, (cur[k]?).map skel_of = (orig[k]?).map skel_of) ∧
  (∀ (k : Nat) (t : TableInfo), cur[k]? = some t →
    t.parent_id = none ∨
      ∃ j u, j ≠ k ∧ orig[j]? = some u ∧ t.parent_id = some u.table_id ∧
        is_contained t.bbox u.bbox 0.85 = true)

theorem skel_eq_elim {orig cur : List TableInfo}
    (h : ∀ k : Nat, (cur[k]?).map skel_of = (orig[k]?).map skel_of)
    {k : Nat} {t : TableInfo} (ht : cur[k]? = some t) :
    ∃ u, orig[k]? = some u ∧ u.table_id = t.table_id ∧ u.page = t.page ∧
      u.bbox = t.bbox := by
  have hk := h k
  rw [ht] at hk
  cases hx : orig[k]? with
  | none => rw [hx] at hk; simp at hk
  | some u =>
    rw [hx] at hk
    have hk2 : skel_of t = skel_of u := by simpa using hk
    unfold skel_of at hk2
    simp only [Prod.mk.injEq] at hk2
    exact ⟨u, rfl, hk2.1.symm, hk2.2.1.symm, hk2.2.2.symm⟩

theorem assign_inv_step {orig cur : List TableInfo} (hinv : assign_inv orig cur)
    (i j : Nat) :
    assign_inv orig
      (if i = j then cur
       else
        match cur[i]?, cur[j]? with
        | some outer, some inner =>
          if is_contained inner.bbox outer.bbox 0.85 then
            cur.set j { inner with parent_id := some outer.table_id }
          else cur
        | some _, none => cur
        | none, _ => cur) := by
  by_cases hij : i = j
  · rw [if_pos hij]; exact hinv
  · rw [if_neg hij]
    cases hi : cur[i]? with
    | none => exact hinv
    | some outer =>
      cases hj : cur[j]? with
      | none => exact hinv
      | some inner =>
        dsimp only
        by_cases hcont : is_contained inner.bbox outer.bbox 0.85 = true
        · rw [if_pos hcont]
          rcases hinv with ⟨hskel, hpar⟩
          have hjlen : j < cur.length := (List.getElem?_eq_some.mp hj).1
          constructor
          · intro k
            rw [List.getElem?_set]
            by_cases hjk : j = k
            · subst hjk
              rw [if_pos rfl, if_pos hjlen]
              have := hskel j
              rw [hj] at this
              exact this
            · rw [if_neg hjk]
              exact hskel k
          · intro k t ht
            rw [List.getElem?_set] at ht
            by_cases hjk : j = k
            · subst hjk
              rw [if_pos rfl, if_pos hjlen] at ht
              cases ht
              rcases skel_eq_elim hskel hi with ⟨u, hu, hid, -, hbb⟩
              exact Or.inr ⟨i, u, hij, hu, by rw [hid], by
                show is_contained inner.bbox u.bbox 0.85 = true
                rw [hbb]
                exact hcont⟩
            · rw [if_neg hjk] at ht
              exact hpar k t ht
        · rw [if_neg hcont]
          exact hinv

theorem assign_page_inv {orig cur : List TableInfo} (sorted : List Nat)
    (hinv : assign_inv orig cur) :
    assign_inv orig (assign_page sorted cur) := by
  unfold assign_page
  refine List.foldlRecOn sorted _ cur hinv ?_
  intro ts1 h1 i _
  refine List.foldlRecOn sorted _ ts1 h1 ?_
  intro ts2 h2 j _
  have := assign_inv_step h2 i j
  by_cases hij : i = j
  · rw [if_pos hij] at this
    rw [if_pos hij]
    exact this
  · rw [if_neg hij] at this
    rw [if_neg hij]
    cases hi : ts2[i]? with
    | none => simpa [hi] using this
    | some outer =>
      cases hj : ts2[j]? with
      | none => simpa [hi, hj] using this
      | some inner => simpa [hi, hj] using this

theorem assign_parents_inv {ts : List TableInfo}
    (hpar : ∀ t ∈ ts, t.parent_id = none) :
    assign_inv ts (assign_parents ts) := by
  unfold assign_parents
  refine List.foldlRecOn (pages_in_order ts) _ ts ?_ ?_
  · refine ⟨fun k => rfl, fun k t ht => Or.inl ?_⟩
    exact hpar t (List.mem_iff_getElem?.mpr ⟨k, ht⟩)
  · intro acc hacc p _
    exact assign_page_inv _ hacc

/-- The containment test forces the child's area strictly below the parent's
whenever the parent rectangle is valid. -/
theorem area_lt_of_contained {b a : Bbox} (hva : valid_bbox a)
    (h : is_contained b a 0.85 = true) :
    calculate_area b < calculate_area a := by
  unfold is_contained at h
  by_cases hemp : max b.x1 a.x1 ≥ min b.x2 a.x2 ∨ max b.y1 a.y1 ≥ min b.y2 a.y2
  · rw [if_pos hemp] at h
    cases h
  · rw [if_neg hemp] at h
    simp only [decide_eq_true_eq] at h
    rcases h with ⟨-, hratio⟩
    have hpos : 0 < calculate_area a := by
      unfold calculate_area
      rcases hva with ⟨h1, h2⟩
      have : 0 < a.x2 - a.x1 := by linarith
      have : 0 < a.y2 - a.y1 := by linarith
      positivity
    have hb : (b.x2 - b.x1) * (b.y2 - b.y1) = calculate_area b := rfl
    rw [hb] at hratio
    have h9 : calculate_area b < 0.9 * calculate_area a :=
      (div_lt_iff₀ hpos).mp hratio
    nlinarith

/-! ### Resolution: nesting levels on a well-formed parent assignment -/

theorem skel_eq_map_id {orig cur : List TableInfo}
    (h : ∀ k : Nat, (cur[k]?).map skel_of = (orig[k]?).map skel_of) :
    cur.map (·.table_id) = orig.map (·.table_id) := by
  apply List.ext_getElem?
  intro k
  rw [List.getElem?_map, List.getElem?_map]
  have hk := h k
  cases hc : cur[k]? with
  | none =>
    rw [hc] at hk
    cases ho : orig[k]? with
    | none => rfl
    | some u => rw [ho] at hk; simp at hk
  | some t =>
    rcases skel_eq_elim h hc with ⟨u, hu, hid, -, -⟩
    rw [hu]
    show some t.table_id = some u.table_id
    rw [hid]

theorem frame_eq_skel {xs ys : List TableInfo} (h : frame_eq xs ys) :
    ∀ k : Nat, (ys[k]?).map skel_of = (xs[k]?).map skel_of := by
  intro k
  have hk := h k
  cases hx : xs[k]? with
  | none =>
    rw [hx] at hk
    cases hy : ys[k]? with
    | none => rfl
    | some t => rw [hy] at hk; simp at hk
  | some u =>
    cases hy : ys[k]? with
    | none => rw [hx, hy] at hk; simp at hk
    | some t =>
      rcases frame_eq_elim h hy with ⟨u', hu', hid, hpg, hbb, -⟩
      have hu : u' = u := by
        rw [hx] at hu'
        exact (Option.some_inj.mp hu').symm
      rw [← hu]
      show some (skel_of t) = some (skel_of u')
      unfold skel_of
      rw [hid, hpg, hbb]

theorem init_levels_map_id (ts : List TableInfo) :
    (init_levels ts).map (·.table_id) = ts.map (·.table_id) := by
  unfold init_levels
  rw [List.map_map]
  rfl

/-- The hypotheses of claim C3, as produced by the containment phase. -/
def parents_from_containment (ts : List TableInfo) : Prop :=
  ∀ t ∈ ts, ∀ pid : String, t.parent_id = some pid →
    ∃ p ∈ ts, p.table_id = pid ∧ calculate_area t.bbox < calculate_area p.bbox

theorem resolvable_init {ts : List TableInfo}
    (H1 : parents_from_containment ts)
    (H2 : (ts.map (·.table_id)).Nodup) :
    resolvable (table_id_to_index (init_levels ts)) (init_levels ts) := by
  unfold resolvable
  intro k t pid ht hpid
  rw [init_levels_getElem] at ht
  cases ho : ts[k]? with
  | none => rw [ho] at ht; cases ht
  | some t0 =>
    rw [ho] at ht
    cases ht
    have hmem : t0 ∈ ts := List.mem_iff_getElem?.mpr ⟨k, ho⟩
    rcases H1 t0 hmem pid hpid with ⟨p, hpmem, hpidp, harea⟩
    rcases List.mem_iff_getElem?.mp hpmem with ⟨j, hj⟩
    have hbsj : (init_levels ts)[j]? = some { p with nesting_level := 0 } := by
      rw [init_levels_getElem, hj]
      rfl
    have hnd : ((init_levels ts).map (·.table_id)).Nodup := by
      rw [init_levels_map_id]; exact H2
    have hlook := table_id_to_index_of_nodup hnd hbsj
    refine ⟨j, { p with nesting_level := 0 }, ?_, hbsj, harea⟩
    have : ({ p with nesting_level := 0 } : TableInfo).table_id = pid := hpidp
    rw [this] at hlook
    exact hlook

/-- Main resolution lemma packaging everything the claims need about
`calculate_nesting_levels`. -/
theorem calculate_nesting_levels_fix {ts : List TableInfo}
    (H1 : parents_from_containment ts)
    (H2 : (ts.map (·.table_id)).Nodup) :
    ∃ out, calculate_nesting_levels ts = some out ∧
      iterate_passes (table_id_to_index (init_levels ts)) ts.length
        (init_levels ts) = some out ∧
      one_pass (table_id_to_index (init_levels ts)) out = some (out, false) ∧
      frame_eq (init_levels ts) out ∧
      (∀ j : Nat, level_at out j =
        depth (table_id_to_index (init_levels ts)) (init_levels ts) j) := by
  have hres := resolvable_init H1 H2
  have hzero := level_at_init ts
  rcases iterate_reaches_fix hres hzero with ⟨out, hit, hfix, hframe, hlev⟩
  rw [init_levels_length] at hit
  refine ⟨out, ?_, hit, hfix, hframe, hlev⟩
  unfold calculate_nesting_levels
  have hrl := run_loop_eq_of_fix ts.length (init_levels ts) out hit hfix
  exact hrl

/-- C3: on parent assignments produced by the containment test (every parent
strictly larger in area, ids unique), the level fixpoint loop terminates, the
state after at most `N` passes is already the fixpoint, and the loop returns
exactly that state. -/
theorem fixpoint_terminates_within_n_passes (ts : List TableInfo)
    (H1 : parents_from_containment ts)
    (H2 : (ts.map (·.table_id)).Nodup) :
    ∃ out, calculate_nesting_levels ts = some out ∧
      iterate_passes (table_id_to_index (init_levels ts)) ts.length
        (init_levels ts) = some out ∧
      one_pass (table_id_to_index (init_levels ts)) out = some (out, false) := by
  rcases calculate_nesting_levels_fix H1 H2 with ⟨out, h1, h2, h3, -, -⟩
  exact ⟨out, h1, h2, h3⟩

/-- A concrete pre-assigned two-region nest (inner `B` parented to outer `A`). -/
def nested_pair : List TableInfo :=
  [⟨"A", 0, ⟨0, 0, 100, 100⟩, none, 0⟩,
   ⟨"B", 0, ⟨10, 10, 90, 90⟩, some "A", 0⟩]

theorem nested_pair_containment : parents_from_containment nested_pair := by
  unfold parents_from_containment nested_pair
  intro t ht pid hpid
  rcases List.mem_cons.mp ht with he | ht2
  · subst he; cases hpid
  · rcases List.mem_cons.mp ht2 with he | h3
    · subst he
      cases hpid
      refine ⟨_, List.mem_cons_self _ _, rfl, ?_⟩
      norm_num [calculate_area]
    · simp at h3

/-- Witness for C3 on a concrete two-region nest. -/
theorem fixpoint_terminates_within_n_passes_witness :
    (parents_from_containment nested_pair ∧
      (nested_pair.map (·.table_id)).Nodup) ∧
    ∃ out,
      calculate_nesting_levels nested_pair = some out ∧
      iterate_passes (table_id_to_index (init_levels nested_pair))
        nested_pair.length (init_levels nested_pair) = some out ∧
      one_pass (table_id_to_index (init_levels nested_pair)) out =
        some (out, false) :=
  ⟨⟨nested_pair_containment, by decide⟩,
    fixpoint_terminates_within_n_passes _ nested_pair_containment (by decide)⟩

/-- C1: after `_detect_nested_relationships` runs on regions as supplied by
the detection stage (unique ids, valid rectangles, no pre-set parents), the
run terminates and in the output every region with a `parent_id` is strictly
deeper than the region named by it (which exists), while parentless regions
sit at level 0. -/
theorem resolver_nesting_invariant (ts : List TableInfo)
    (hids : (ts.map (·.table_id)).Nodup)
    (hvalid : ∀ t ∈ ts, valid_bbox t.bbox)
    (hpar : ∀ t ∈ ts, t.parent_id = none) :
    ∃ out, detect_nested_relationships ts = some out ∧
      (∀ t ∈ out, ∀ p ∈ out, t.parent_id = some p.table_id →
        p.nesting_level < t.nesting_level) ∧
      (∀ t ∈ out, ∀ pid : String, t.parent_id = some pid →
        ∃ p ∈ out, p.table_id = pid) ∧
      (∀ t ∈ out, t.parent_id = none → t.nesting_level = 0) := by
  rcases assign_parents_inv hpar with ⟨hskel, hgeom⟩
  have hids' : ((assign_parents ts).map (·.table_id)).Nodup := by
    rw [skel_eq_map_id hskel]; exact hids
  have hH1 : parents_from_containment (assign_parents ts) := by
    intro t htmem pid hpid
    rcases List.mem_iff_getElem?.mp htmem with ⟨k, hk⟩
    rcases hgeom k t hk with hnone | ⟨j, u, hjk, hu, hpid', hcont⟩
    · rw [hnone] at hpid; cases hpid
    · have hj := hskel j
      rw [hu] at hj
      cases ha : (assign_parents ts)[j]? with
      | none => rw [ha] at hj; simp at hj
      | some u2 =>
        rw [ha] at hj
        have h2 : skel_of u2 = skel_of u := by simpa using hj
        unfold skel_of at h2
        simp only [Prod.mk.injEq] at h2
        have humem : u ∈ ts := List.mem_iff_getElem?.mpr ⟨j, hu⟩
        have harea : calculate_area t.bbox < calculate_area u.bbox :=
          area_lt_of_contained (hvalid u humem) hcont
        refine ⟨u2, List.mem_iff_getElem?.mpr ⟨j, ha⟩, ?_, ?_⟩
        · rw [h2.1]
          rw [hpid'] at hpid
          exact (Option.some_inj.mp hpid).symm ▸ rfl
        · rw [h2.2.2]
          exact harea
  rcases calculate_nesting_levels_fix hH1 hids' with
    ⟨out, hcalc, -, hfix, hframe, hlev⟩
  have hdet : detect_nested_relationships ts = some out := hcalc
  have hnoop := (one_pass_false hfix).2
  have hbs_ids : ((init_levels (assign_parents ts)).map (·.table_id)).Nodup := by
    rw [init_levels_map_id]; exact hids'
  refine ⟨out, hdet, ?_, ?_, ?_⟩
  · intro t htmem p hpmem hpt
    rcases List.mem_iff_getElem?.mp htmem with ⟨k, hk⟩
    rcases List.mem_iff_getElem?.mp hpmem with ⟨j, hj⟩
    rcases hnoop k t p.table_id hk hpt with ⟨pi, q, hl, hq, hlt⟩
    rcases frame_eq_elim hframe hj with ⟨u, hu, huid, -, -, -⟩
    have hlook2 := table_id_to_index_of_nodup hbs_ids hu
    rw [huid] at hlook2
    rw [hl] at hlook2
    have hpij : pi = j := Option.some_inj.mp hlook2
    rw [hpij] at hq
    rw [hj] at hq
    cases hq
    exact hlt
  · intro t htmem pid hpt
    rcases List.mem_iff_getElem?.mp htmem with ⟨k, hk⟩
    rcases hnoop k t pid hk hpt with ⟨pi, q, hl, hq, -⟩
    rw [table_id_to_index_eq_fold] at hl
    rcases id_fold_sound _ _ _ _ hl with ⟨w, hw, hwid⟩
    rcases frame_eq_elim hframe hq with ⟨u, hu, huid, -, -, -⟩
    have huw : u = w := by
      rw [hw] at hu
      exact (Option.some_inj.mp hu).symm
    refine ⟨q, List.mem_iff_getElem?.mpr ⟨pi, hq⟩, ?_⟩
    rw [← huid, huw, hwid]
  · intro t htmem hnone
    rcases List.mem_iff_getElem?.mp htmem with ⟨k, hk⟩
    have hlevk : level_at out k = t.nesting_level := by
      unfold level_at; rw [hk]
    have hdep0 : depth (table_id_to_index (init_levels (assign_parents ts)))
        (init_levels (assign_parents ts)) k = 0 := by
      apply depth_of_no_parent
      rcases frame_eq_elim hframe hk with ⟨u, hu, -, -, -, hup⟩
      unfold parent_idx
      rw [hu]
      dsimp only
      rw [hup, hnone]
    have := hlev k
    omega

/-- The spec's end-to-end rectangles, before the resolver runs. -/
def raw_pair : List TableInfo :=
  [⟨"A", 0, ⟨0, 0, 100, 100⟩, none, 0⟩,
   ⟨"B", 0, ⟨10, 10, 90, 90⟩, none, 0⟩]

/-- Witness for C1 at the spec's end-to-end scenario. -/
theorem resolver_nesting_invariant_witness :
    ((raw_pair.map (·.table_id)).Nodup ∧
      (∀ t ∈ raw_pair, valid_bbox t.bbox) ∧
      (∀ t ∈ raw_pair, t.parent_id = none)) ∧
    ∃ out, detect_nested_relationships raw_pair = some out ∧
      (∀ t ∈ out, ∀ p ∈ out, t.parent_id = some p.table_id →
        p.nesting_level < t.nesting_level) ∧
      (∀ t ∈ out, ∀ pid : String, t.parent_id = some pid →
        ∃ p ∈ out, p.table_id = pid) ∧
      (∀ t ∈ out, t.parent_id = none → t.nesting_level = 0) :=
  ⟨⟨by decide, by decide, by decide⟩,
    resolver_nesting_invariant raw_pair (by decide) (by decide) (by decide)⟩

/-! ## Intent analysis: `src/querying/intent_analysis.py` -/

/-- Contiguous-sublist test on character lists. -/
def char_sub : List Char → List Char → Bool
  | needle, [] => needle.isEmpty
  | needle, c :: rest => needle.isPrefixOf (c :: rest) || char_sub needle rest

/-- Python's substring test `needle in hay`. -/
def str_contains (hay needle : String) : Bool :=
  char_sub needle.toList hay.toList

/-- `re.findall(r'(19|20)\d{2}', query)`: scan left to right; at each match of
the whole pattern the CAPTURE GROUP (`19` or `20`), not the full 4-digit
match, is collected, and scanning resumes after the full match.  `\d` is
modelled as an ASCII digit ('0'-'9'), which agrees with Python on the inputs
considered here. -/
def find_year_groups : List Char → List String
  | c1 :: c2 :: c3 :: c4 :: rest =>
    if ((c1 = '1' ∧ c2 = '9') ∨ (c1 = '2' ∧ c2 = '0')) ∧
        c3.isDigit ∧ c4.isDigit then
      String.mk [c1, c2] :: find_year_groups rest
    else
      find_year_groups (c2 :: c3 :: c4 :: rest)
  | _ => []

/-- The `time_focus` axis of the intent: a list of matched year strings, a
relative-time tag, or nothing (`None`). -/
inductive TimeFocus where
  | years (ys : List String)
  | rel (t : String)
  | none
deriving DecidableEq, Repr

/-- The ordered relative-time table of `_detect_time_focus` (dict insertion
order). -/
def relative_time_terms : List (String × List String) :=
  [("current", ["今年", "本年", "当前", "现在", "current", "this year"]),
   ("previous", ["去年", "上年", "上一年", "last year", "previous year"]),
   ("next", ["明年", "下一年", "next year"]),
   ("recent", ["近年", "最近", "近期", "recent", "lately"])]

/-- `QueryIntentAnalyzer._detect_time_focus` (note: operates on the raw query,
not the lowercased one). -/
def detect_time_focus (query : String) : TimeFocus :=
  let years := find_year_groups query.toList
  if years ≠ [] then
    .years years
  else
    match relative_time_terms.find?
      (fun p => p.2.any (fun term => str_contains query term)) with
    | some p => .rel p.1
    | Option.none => .none

/-- C6: on the spec's own example query, `_detect_time_focus` returns
`["20"]`, not `["2022"]` — `re.findall` with a capturing group returns the
group text (`19`/`20`), not the whole 4-digit match. -/
theorem detect_time_focus_returns_groups :
    detect_time_focus "2022年的总资产是多少?" = TimeFocus.years ["20"] := by
  rfl

/-! ## Vector index: `src/vector_indexing/indexer.py`

Floating-point vector entries become exact rationals; the floating-point
square root inside `np.linalg.norm` is an explicit parameter `sqrtFn`. -/

/-- The metadata keys the querying layer reads (`dict.get` semantics). -/
structure Metadata where
  table_id : Option String
  table_type : Option String
  metric_name : Option String
deriving DecidableEq, Repr

/-- One value of the `id_to_data` mapping. -/
structure ChunkData where
  table_idx : Nat
  chunk_type : String
  content : String
  metadata : Metadata
deriving DecidableEq, Repr

/-- One element of the `embeddings` list passed to `build_index`. -/
structure EmbeddingData where
  embedding : List ℚ
  table_idx : Nat
  chunk_type : String
  content : String
  metadata : Metadata
deriving DecidableEq, Repr

/-- Model of a built `hnswlib.Index` (cosine space): its declared dimension
and stored items, labelled `0..N-1` in insertion order. -/
structure HnswIndexModel where
  dim : Nat
  items : List (List ℚ)
deriving DecidableEq, Repr

/-- `self.index`: either an hnswlib index or the `np.array` vector matrix. -/
inductive IndexRepr where
  | hnsw (h : HnswIndexModel)
  | brute (mat : List (List ℚ))
deriving DecidableEq, Repr

/-- The mutable state of a `VectorIndexBuilder` instance. -/
structure VectorIndexBuilder where
  use_hnsw : Bool
  index : Option IndexRepr
  id_to_data : List ChunkData
  embedding_size : Option Nat
deriving DecidableEq, Repr

/-- `VectorIndexBuilder.__init__` (`use_hnsw and HNSW_AVAILABLE` folded into
the Boolean argument). -/
def init_builder (use_hnsw : Bool) : VectorIndexBuilder :=
  ⟨use_hnsw, none, [], none⟩

/-- `np.array` on a list of vectors: numpy rejects ragged input (mixed
dimensions raise `ValueError`), modelled as `none`. -/
def np_stack (vs : List (List ℚ)) : Option (List (List ℚ)) :=
  match vs with
  | [] => some []
  | v :: rest =>
    if rest.all (fun w => w.length = v.length) then some (v :: rest) else none

/-- `_build_hnsw_index`: `np.array` the vectors, then `add_items`, which
requires every row to match the declared dimension (hnswlib raises
otherwise). -/
def build_hnsw_index (dim : Nat) (vectors : List (List ℚ)) :
    Option HnswIndexModel :=
  match np_stack vectors with
  | none => none
  | some m => if m.all (fun v => v.length = dim) then some ⟨dim, m⟩ else none

def chunk_of_embedding (e : EmbeddingData) : ChunkData :=
  ⟨e.table_idx, e.chunk_type, e.content, e.metadata⟩

/-- The dict returned by a successful non-empty `build_index`. -/
structure BuildResult where
  index : IndexRepr
  id_to_data : List ChunkData
  embedding_size : Nat
  index_type : String
deriving DecidableEq, Repr

/-- `VectorIndexBuilder.build_index`.  Outer `none` models an uncaught
exception (ragged `np.array`, hnswlib dimension error): the build aborts and
no index is produced.  On empty input the method prints and returns `None`
(the inner `Option`), leaving the state untouched. -/
def build_index (b : VectorIndexBuilder) (embeddings : List EmbeddingData) :
    Option (VectorIndexBuilder × Option BuildResult) :=
  if embeddings.isEmpty then some (b, none)
  else
    let vectors := embeddings.map (·.embedding)
    let esize := (vectors.headD []).length
    let newIndex : Option IndexRepr :=
      if b.use_hnsw then (build_hnsw_index esize vectors).map IndexRepr.hnsw
      else (np_stack vectors).map IndexRepr.brute
    match newIndex with
    | none => none
    | some idx =>
      let idToData := embeddings.map chunk_of_embedding
      some ({ b with index := some idx
                     id_to_data := idToData
                     embedding_size := some esize },
        some ⟨idx, idToData, esize,
          if b.use_hnsw then "hnsw" else "brute_force"⟩)

/-! Brute-force cosine similarity, as in `search`'s else-branch. -/

def dot_product (v w : List ℚ) : ℚ := (List.zipWith (· * ·) v w).sum

def sum_squares (v : List ℚ) : ℚ := (v.map (fun x => x * x)).sum

/-- `np.dot(self.index, query_vector)`. -/
def brute_dots (mat : List (List ℚ)) (q : List ℚ) : List ℚ :=
  mat.map (fun row => dot_product row q)

/-- `np.linalg.norm(self.index, axis=1) * np.linalg.norm(query_vector)`:
the row norms times the query norm, with `sqrtFn` standing for the
floating-point square root. -/
def brute_norms (sqrtFn : ℚ → ℚ) (mat : List (List ℚ)) (q : List ℚ) : List ℚ :=
  mat.map (fun row => sqrtFn (sum_squares row) * sqrtFn (sum_squares q))

/-- `cosine_similarities = dots / norms` (elementwise; no zero guard). -/
def cosine_scores (sqrtFn : ℚ → ℚ) (mat : List (List ℚ)) (q : List ℚ) :
    List ℚ :=
  List.zipWith (· / ·) (brute_dots mat q) (brute_norms sqrtFn mat q)

/-- Descending order on `(index, score)` pairs with ascending-index
tie-break: the order produced by `np.argsort(-cosine_similarities)`
(numpy leaves tie order unspecified; no claim depends on it). -/
def score_order (a b : Nat × ℚ) : Prop :=
  b.2 < a.2 ∨ (a.2 = b.2 ∧ a.1 ≤ b.1)

instance : DecidableRel score_order := by
  unfold score_order
  infer_instance

instance : IsTotal (Nat × ℚ) score_order := by
  constructor
  intro a b
  unfold score_order
  rcases lt_trichotomy a.2 b.2 with h | h | h
  · right; left; exact h
  · rcases Nat.le_total a.1 b.1 with h' | h'
    · left; right; exact ⟨h, h'⟩
    · right; right; exact ⟨h.symm, h'⟩
  · left; left; exact h

instance : IsTrans (Nat × ℚ) score_order := by
  constructor
  intro a b c hab hbc
  unfold score_order at *
  rcases hab with h1 | ⟨h1, h1'⟩ <;> rcases hbc with h2 | ⟨h2, h2'⟩
  · left; exact lt_trans h2 h1
  · left; rw [← h2]; exact h1
  · left; rw [h1]; exact h2
  · right; exact ⟨h1.trans h2, h1'.trans h2'⟩

/-- `np.argsort(-cosine_similarities)`: indices sorted by score descending. -/
def argsort_desc (xs : List ℚ) : List Nat :=
  (List.insertionSort score_order xs.enum).map Prod.fst

/-- One element of the result list of `search`. -/
structure SearchResult where
  id : Nat
  distance : ℚ
  score : ℚ
  rank : Nat
  data : Option ChunkData
deriving DecidableEq, Repr

/-- `hnswlib.Index.knn_query`, modelled from the library's documented
contract: it raises (`none`) whenever `k` exceeds the number of stored
elements; on success it returns `k` `(label, cosine-distance)` pairs, nearest
first (approximation error is ignored here — no claim depends on the success
ranking). -/
def knn_query (h : HnswIndexModel) (q : List ℚ) (k : Nat) (sqrtFn : ℚ → ℚ) :
    Option (List (Nat × ℚ)) :=
  if k ≤ h.items.length then
    let cos := cosine_scores sqrtFn h.items q
    some (((argsort_desc cos).take k).map (fun i => (i, 1 - cos.getD i 0)))
  else none

/-- `VectorIndexBuilder.search`.  `none` models an uncaught exception; with no
index built the method prints and returns `[]`.  The branch is selected by
`self.use_hnsw` exactly as in the source; a mismatched index representation
would crash Python (`none`). -/
def search (b : VectorIndexBuilder) (sqrtFn : ℚ → ℚ) (query_vector : List ℚ)
    (top_k : Nat) : Option (List SearchResult) :=
  match b.index with
  | none => some []
  | some idx =>
    if b.use_hnsw then
      match idx with
      | .hnsw h =>
        match knn_query h query_vector top_k sqrtFn with
        | none => none
        | some pairs =>
          some (pairs.enum.map (fun p =>
            ⟨p.2.1, p.2.2, 1 - p.2.2, p.1, b.id_to_data[p.2.1]?⟩))
      | .brute _ => none
    else
      match idx with
      | .brute mat =>
        let cos := cosine_scores sqrtFn mat query_vector
        let top := (argsort_desc cos).take top_k
        some (top.enum.map (fun p =>
          ⟨p.2, 1 - cos.getD p.2 0, cos.getD p.2 0, p.1, b.id_to_data[p.2]?⟩))
      | .hnsw _ => none

/-! ### Index claims -/

theorem np_stack_none_of_mixed {vs : List (List ℚ)} {u w : List ℚ}
    (hu : u ∈ vs) (hw : w ∈ vs) (hne : u.length ≠ w.length) :
    np_stack vs = none := by
  unfold np_stack
  cases vs with
  | nil => cases hu
  | cons v rest =>
    by_cases hall : rest.all (fun x => x.length = v.length)
    · exfalso
      have hlen : ∀ x ∈ v :: rest, x.length = v.length := by
        intro x hx
        rcases List.mem_cons.mp hx with he | hm
        · rw [he]
        · have := List.all_eq_true.mp hall x hm
          simpa using this
      exact hne ((hlen u hu).trans (hlen w hw).symm)
    · dsimp only
      rw [if_neg hall]

/-- C8: feeding two vectors of different lengths into one `build_index` makes
the build abort (numpy/hnswlib reject the ragged array) in both index modes;
no index is produced. -/
theorem build_index_mixed_dims_aborts (b : VectorIndexBuilder)
    (embeddings : List EmbeddingData) (e1 e2 : EmbeddingData)
    (h1 : e1 ∈ embeddings) (h2 : e2 ∈ embeddings)
    (hne : e1.embedding.length ≠ e2.embedding.length) :
    build_index b embeddings = none := by
  unfold build_index
  have hnonempty : embeddings.isEmpty = false := by
    cases embeddings with
    | nil => cases h1
    | cons a l => rfl
  rw [hnonempty]
  dsimp only
  have hstack : np_stack (embeddings.map (·.embedding)) = none :=
    np_stack_none_of_mixed (List.mem_map_of_mem _ h1)
      (List.mem_map_of_mem _ h2) hne
  by_cases hmode : b.use_hnsw
  · rw [if_pos hmode]
    unfold build_hnsw_index
    rw [hstack]
    rfl
  · rw [if_neg hmode]
    rw [hstack]
    rfl

/-- Witness for C8: a 2-dimensional and a 3-dimensional vector in one build. -/
theorem build_index_mixed_dims_aborts_witness :
    ((⟨[1, 0], 0, "table_full", "c1", ⟨none, none, none⟩⟩ : EmbeddingData) ∈
        [(⟨[1, 0], 0, "table_full", "c1", ⟨none, none, none⟩⟩ : EmbeddingData),
         ⟨[0, 1, 2], 0, "table_row", "c2", ⟨none, none, none⟩⟩] ∧
      (⟨[0, 1, 2], 0, "table_row", "c2", ⟨none, none, none⟩⟩ : EmbeddingData) ∈
        [(⟨[1, 0], 0, "table_full", "c1", ⟨none, none, none⟩⟩ : EmbeddingData),
         ⟨[0, 1, 2], 0, "table_row", "c2", ⟨none, none, none⟩⟩] ∧
      ([1, 0] : List ℚ).length ≠ ([0, 1, 2] : List ℚ).length) ∧
    build_index (init_builder false)
      [⟨[1, 0], 0, "table_full", "c1", ⟨none, none, none⟩⟩,
       ⟨[0, 1, 2], 0, "table_row", "c2", ⟨none, none, none⟩⟩] = none :=
  ⟨⟨by decide, by decide, by decide⟩,
    build_index_mixed_dims_aborts _ _ _ _
      (List.mem_cons_self _ _)
      (List.mem_cons_of_mem _ (List.mem_cons_self _ _)) (by decide)⟩

/-- C9: building from an empty chunk list is non-fatal (the method prints and
returns `None`, leaving the builder untouched), and every subsequent search on
that builder returns zero results. -/
theorem build_empty_yields_empty_index (use_hnsw : Bool) (sqrtFn : ℚ → ℚ)
    (q : List ℚ) (k : Nat) :
    build_index (init_builder use_hnsw) [] = some (init_builder use_hnsw, none) ∧
      search (init_builder use_hnsw) sqrtFn q k = some [] :=
  ⟨rfl, rfl⟩

/-- C10: the brute-force branch divides `dots` by
`norms = row_norm * query_norm` with no zero guard: for the all-zero query
vector the divisor is `0` (and the numerator too), so the similarity the code
computes is `0/0` — `NaN` in the source's floating-point arithmetic, not a
cosine in `[-1, 1]`.  `sqrtFn` is any model of the float square root with
`sqrt 0 = 0`. -/
theorem brute_search_zero_query_divides_by_zero (sqrtFn : ℚ → ℚ)
    (h0 : sqrtFn 0 = 0) :
    brute_norms sqrtFn [[1, 0]] [0, 0] = [0] ∧
      brute_dots [[1, 0]] [0, 0] = [0] := by
  constructor
  · show [sqrtFn (sum_squares [1, 0]) * sqrtFn (sum_squares [0, 0])] = [0]
    have h1 : sum_squares [(0 : ℚ), 0] = 0 := by
      unfold sum_squares
      norm_num
    rw [h1, h0, mul_zero]
  · show [dot_product [1, 0] [0, 0]] = [0]
    have : dot_product [(1 : ℚ), 0] [0, 0] = 0 := by
      unfold dot_product
      norm_num
    rw [this]

theorem brute_search_zero_query_divides_by_zero_witness :
    ((fun x : ℚ => x) 0 = 0) ∧
      (brute_norms (fun x : ℚ => x) [[1, 0]] [0, 0] = [0] ∧
        brute_dots [[1, 0]] [0, 0] = [0]) :=
  ⟨rfl, brute_search_zero_query_divides_by_zero (fun x => x) rfl⟩

theorem cosine_scores_length (sqrtFn : ℚ → ℚ) (mat : List (List ℚ))
    (q : List ℚ) : (cosine_scores sqrtFn mat q).length = mat.length := by
  unfold cosine_scores brute_dots brute_norms
  rw [List.length_zipWith, List.length_map, List.length_map]
  omega

/-- C5 (amended): in exact (brute-force) mode, a `search` whose `top_k`
exceeds the number of stored vectors returns all of them, ranked 0-based in
non-increasing score order.  (In HNSW mode the unclamped `k` is rejected by
the backend — see the counterexample.) -/
theorem search_exact_top_k_returns_all (b : VectorIndexBuilder)
    (mat : List (List ℚ)) (sqrtFn : ℚ → ℚ) (q : List ℚ) (k : Nat)
    (hmode : b.use_hnsw = false) (hidx : b.index = some (IndexRepr.brute mat))
    (hk : mat.length < k) :
    ∃ rs, search b sqrtFn q k = some rs ∧ rs.length = mat.length ∧
      (∀ (p : Nat) (r : SearchResult), rs[p]? = some r → r.rank = p) ∧
      (∀ (p p' : Nat) (r r' : SearchResult), p ≤ p' → rs[p]? = some r →
        rs[p']? = some r' → r'.score ≤ r.score) := by
  have hsearch : search b sqrtFn q k =
      some ((((argsort_desc (cosine_scores sqrtFn mat q)).take k).enum).map
        (fun p => ⟨p.2, 1 - (cosine_scores sqrtFn mat q).getD p.2 0,
          (cosine_scores sqrtFn mat q).getD p.2 0, p.1,
          b.id_to_data[p.2]?⟩)) := by
    unfold search
    rw [hidx, hmode]
    rfl
  set cos := cosine_scores sqrtFn mat q with hcos
  set sortedPairs := List.insertionSort score_order cos.enum with hsp
  have hlen_cos : cos.length = mat.length := cosine_scores_length sqrtFn mat q
  have hlen_sorted : sortedPairs.length = mat.length := by
    rw [hsp, (List.perm_insertionSort score_order cos.enum).length_eq,
      List.enum_length, hlen_cos]
  have hargeq : argsort_desc cos = sortedPairs.map Prod.fst := rfl
  have htake : (argsort_desc cos).take k = sortedPairs.map Prod.fst := by
    rw [hargeq]
    exact List.take_of_length_le (by rw [List.length_map]; omega)
  rw [htake] at hsearch
  refine ⟨_, hsearch, ?_, ?_, ?_⟩
  · rw [List.length_map, List.enum_length, List.length_map, hlen_sorted]
  · intro p r hr
    rw [List.getElem?_map, List.getElem?_enum] at hr
    cases hm : (sortedPairs.map Prod.fst)[p]? with
    | none => rw [hm] at hr; cases hr
    | some idx =>
      rw [hm] at hr
      cases hr
      rfl
  · have hpair_val : ∀ (p : Nat) (pr : Nat × ℚ), sortedPairs[p]? = some pr →
        cos.getD pr.1 0 = pr.2 := by
      intro p pr hpr
      obtain ⟨i, a⟩ := pr
      have hmem : (i, a) ∈ sortedPairs := List.mem_iff_getElem?.mpr ⟨p, hpr⟩
      have hmem2 : (i, a) ∈ cos.enum :=
        (List.perm_insertionSort score_order cos.enum).mem_iff.mp hmem
      have := List.mk_mem_enum_iff_getElem?.mp hmem2
      rw [List.getD_eq_getElem?_getD, this]
      rfl
    have hsorted : List.Sorted score_order sortedPairs :=
      List.sorted_insertionSort score_order cos.enum
    intro p p' r r' hle hr hr'
    rw [List.getElem?_map, List.getElem?_enum] at hr hr'
    cases hm : (sortedPairs.map Prod.fst)[p]? with
    | none => rw [hm] at hr; cases hr
    | some idx =>
      cases hm' : (sortedPairs.map Prod.fst)[p']? with
      | none => rw [hm'] at hr'; cases hr'
      | some idx' =>
        rw [hm] at hr
        rw [hm'] at hr'
        cases hr
        cases hr'
        rw [List.getElem?_map] at hm hm'
        cases hq : sortedPairs[p]? with
        | none => rw [hq] at hm; cases hm
        | some pr =>
          cases hq' : sortedPairs[p']? with
          | none => rw [hq'] at hm'; cases hm'
          | some pr' =>
            rw [hq] at hm
            rw [hq'] at hm'
            cases hm
            cases hm'
            show cos.getD pr'.1 0 ≤ cos.getD pr.1 0
            rw [hpair_val p pr hq, hpair_val p' pr' hq']
            rcases Nat.eq_or_lt_of_le hle with he | hlt
            · subst he
              rw [hq] at hq'
              cases hq'
              exact le_refl _
            · have hp' : p' < sortedPairs.length :=
                (List.getElem?_eq_some.mp hq').1
              have hp : p < sortedPairs.length := by omega
              have hrel := List.pairwise_iff_getElem.mp hsorted p p' hp hp' hlt
              have he1 := Option.some_inj.mp
                ((List.getElem?_eq_getElem hp).symm.trans hq)
              have he2 := Option.some_inj.mp
                ((List.getElem?_eq_getElem hp').symm.trans hq')
              rw [he1, he2] at hrel
              unfold score_order at hrel
              rcases hrel with h | ⟨h, -⟩
              · exact le_of_lt h
              · exact le_of_eq h.symm

/-- Empty metadata record. -/
def plain_meta : Metadata := ⟨none, none, none⟩

/-- Two 2-d embeddings fed to the index builders in the examples below. -/
def two_embeddings : List EmbeddingData :=
  [⟨[1, 0], 0, "table_full", "c1", plain_meta⟩,
   ⟨[0, 1], 0, "table_row", "c2", plain_meta⟩]

/-- The builder state `build_index` produces from `two_embeddings` in HNSW
mode. -/
def hnsw_two : VectorIndexBuilder :=
  ⟨true, some (.hnsw ⟨2, [[1, 0], [0, 1]]⟩),
   [⟨0, "table_full", "c1", plain_meta⟩, ⟨0, "table_row", "c2", plain_meta⟩],
   some 2⟩

/-- The builder state `build_index` produces from `two_embeddings` in
brute-force mode. -/
def brute_two : VectorIndexBuilder :=
  ⟨false, some (.brute [[1, 0], [0, 1]]),
   [⟨0, "table_full", "c1", plain_meta⟩, ⟨0, "table_row", "c2", plain_meta⟩],
   some 2⟩

/-- C5 counterexample: in HNSW mode `search` forwards `top_k` unclamped to
`knn_query`, which rejects `k` larger than the stored element count — the
call fails instead of returning the 2 stored entries. -/
theorem search_hnsw_overlarge_k_fails :
    (build_index (init_builder true) two_embeddings).map Prod.fst =
        some hnsw_two ∧
      search hnsw_two (fun x => x) [1, 0] 5 = none :=
  ⟨rfl, rfl⟩

/-- Witness for the amended C5, on the index `build_index` produces from
`two_embeddings` in brute-force mode. -/
theorem search_exact_top_k_returns_all_witness :
    ((build_index (init_builder false) two_embeddings).map Prod.fst =
        some brute_two ∧
      brute_two.use_hnsw = false ∧
      brute_two.index = some (IndexRepr.brute [[1, 0], [0, 1]]) ∧
      ([[1, 0], [0, 1]] : List (List ℚ)).length < 5) ∧
    ∃ rs, search brute_two (fun x => x) [1, 0] 5 = some rs ∧
      rs.length = ([[1, 0], [0, 1]] : List (List ℚ)).length ∧
      (∀ (p : Nat) (r : SearchResult), rs[p]? = some r → r.rank = p) ∧
      (∀ (p p' : Nat) (r r' : SearchResult), p ≤ p' → rs[p]? = some r →
        rs[p']? = some r' → r'.score ≤ r.score) :=
  ⟨⟨rfl, rfl, rfl, by decide⟩,
    search_exact_top_k_returns_all brute_two [[1, 0], [0, 1]] (fun x => x)
      [1, 0] 5 rfl rfl (by decide)⟩

/-! ## Query post-processing: `src/querying/search.py` -/

/-- The intent dict produced by `QueryIntentAnalyzer.analyze_intent`. -/
structure Intent where
  data_type : String
  granularity : String
  time_focus : TimeFocus
  comparison : Bool
  calculation : Bool
  original_query : String
deriving DecidableEq, Repr

/-- One raw retrieval candidate as consumed by `_post_process_results`. -/
structure RawResult where
  score : ℚ
  rank : Nat
  data : ChunkData
deriving DecidableEq, Repr

/-- One element of `processed_results`. -/
structure EnhancedResult where
  score : ℚ
  rank : Nat
  content : String
  chunk_type : String
  metadata : Metadata
  table_idx : Nat
  relevance_explanation : String
deriving DecidableEq, Repr

/-- `TableQueryProcessor._extract_table_type`. -/
def extract_table_type (e : EnhancedResult) : Option String :=
  match e.metadata.table_type with
  | some tt => some tt
  | none =>
    let cl := e.content.toLower
    if ["资产负债表", "balance sheet", "资产", "负债"].any
        (fun t => str_contains cl t) then some "balance_sheet"
    else if ["损益表", "income statement", "利润", "收入"].any
        (fun t => str_contains cl t) then some "income_statement"
    else if ["现金流量表", "cash flow", "现金"].any
        (fun t => str_contains cl t) then some "cash_flow"
    else none

/-- `TableQueryProcessor._explain_relevance`. -/
def explain_relevance (d : ChunkData) (intent : Intent) : String :=
  let content := d.content
  let exps0 : List String :=
    if d.chunk_type = "table_full" then ["此结果显示完整表格信息"]
    else if d.chunk_type = "table_metric" then ["此结果包含您可能关注的具体指标"]
    else if d.chunk_type = "table_row" then ["此结果展示表格中的特定行数据"]
    else if d.chunk_type = "table_column" then ["此结果展示表格中的特定列数据"]
    else if d.chunk_type = "table_description" then ["此结果提供表格的整体描述"]
    else []
  let exps1 := exps0 ++
    (if intent.granularity = "metric" then
      match d.metadata.metric_name with
      | some name => ["包含您查询的指标类型: " ++ name]
      | none => []
    else [])
  let exps2 := exps1 ++
    (if intent.comparison ∧ ["增长", "下降", "变化", "比较", "对比"].any
        (fun t => str_contains content.toLower t) then
      ["包含可用于比较分析的数据"]
    else [])
  let exps3 := exps2 ++
    (match intent.time_focus with
     | .years ys =>
        -- `if intent['time_focus']:` — an empty list is falsy
        if ys ≠ [] ∧ ys.any (fun y => str_contains content y) then
          ["包含相关年份数据: " ++
            String.intercalate ", " (ys.filter (fun y => str_contains content y))]
        else []
     | .rel t =>
        if t ≠ "" ∧ str_contains content t then ["包含相关时间段: " ++ t] else []
     | .none => [])
  String.intercalate "; " exps3

/-- Construction of `enhanced_result` (before score adjustments). -/
def enhance_result (r : RawResult) (intent : Intent) : EnhancedResult :=
  ⟨r.score, r.rank, r.data.content, r.data.chunk_type, r.data.metadata,
   r.data.table_idx, explain_relevance r.data intent⟩

/-- The granularity `if/elif/elif` block of `_adjust_by_intent`. -/
def adjust_granularity (e : EnhancedResult) (intent : Intent) : EnhancedResult :=
  if intent.granularity = "overview" ∧
      (e.chunk_type = "table_full" ∨ e.chunk_type = "table_description") then
    { e with score := e.score * 1.2 }
  else if intent.granularity = "specific" ∧
      (e.chunk_type = "table_row" ∨ e.chunk_type = "table_column") then
    { e with score := e.score * 1.2 }
  else if intent.granularity = "metric" ∧ e.chunk_type = "table_metric" then
    { e with score := e.score * 1.3 }
  else e

/-- The calculation block of `_adjust_by_intent`. -/
def adjust_calculation (e : EnhancedResult) (intent : Intent) : EnhancedResult :=
  if intent.calculation ∧ e.chunk_type = "table_metric" then
    { e with score := e.score * 1.2 }
  else e

/-- The data-type block of `_adjust_by_intent` (`if table_type and ...`:
an empty string is falsy; `in` is the substring test). -/
def adjust_data_type (e : EnhancedResult) (intent : Intent) : EnhancedResult :=
  if intent.data_type ≠ "unknown" then
    match extract_table_type e with
    | some tt =>
      if tt ≠ "" ∧ str_contains tt intent.data_type then
        { e with score := e.score * 1.15 }
      else e
    | none => e
  else e

/-- `TableQueryProcessor._adjust_by_intent`: the three blocks in source
order. -/
def adjust_by_intent (e : EnhancedResult) (intent : Intent) : EnhancedResult :=
  adjust_data_type (adjust_calculation (adjust_granularity e intent) intent)
    intent

/-- `enhanced_result` after the `table_full` ×1.1 boost and
`_adjust_by_intent`: the candidate as it stands when the dedup test runs. -/
def processed_candidate (intent : Intent) (r : RawResult) : EnhancedResult :=
  let e0 := enhance_result r intent
  let e1 := if e0.chunk_type = "table_full" then
      { e0 with score := e0.score * 1.1 }
    else e0
  adjust_by_intent e1 intent

/-- One iteration of the `for result in raw_results` loop of
`_post_process_results`: build the enhanced result, apply the `table_full`
boost and the intent adjustments, then append unless a `full` chunk of this
`table_id` was already kept (appended `full` chunks record their id in
`seen_table_ids`). -/
def post_loop_step (intent : Intent)
    (st : List EnhancedResult × List (Option String)) (r : RawResult) :
    List EnhancedResult × List (Option String) :=
  let table_id := r.data.metadata.table_id
  let e2 := processed_candidate intent r
  if table_id ∉ st.2 ∨ e2.chunk_type ≠ "table_full" then
    (st.1 ++ [e2],
     if e2.chunk_type = "table_full" then st.2 ++ [table_id] else st.2)
  else st

/-- The dedup-and-adjust loop of `_post_process_results`
(`processed_results`, `seen_table_ids`). -/
def post_process_dedup (raw : List RawResult) (intent : Intent) :
    List EnhancedResult × List (Option String) :=
  raw.foldl (post_loop_step intent) ([], [])

/-- Stable descending order on `(original position, result)` pairs: the
semantics of Python's stable `sort(key=lambda x: x['score'], reverse=True)`. -/
def result_order (a b : Nat × EnhancedResult) : Prop :=
  b.2.score < a.2.score ∨ (a.2.score = b.2.score ∧ a.1 ≤ b.1)

instance : DecidableRel result_order := by
  unfold result_order
  infer_instance

instance : IsTotal (Nat × EnhancedResult) result_order := by
  constructor
  intro a b
  unfold result_order
  rcases lt_trichotomy a.2.score b.2.score with h | h | h
  · right; left; exact h
  · rcases Nat.le_total a.1 b.1 with h' | h'
    · left; right; exact ⟨h, h'⟩
    · right; right; exact ⟨h.symm, h'⟩
  · left; left; exact h

instance : IsTrans (Nat × EnhancedResult) result_order := by
  constructor
  intro a b c hab hbc
  unfold result_order at *
  rcases hab with h1 | ⟨h1, h1'⟩ <;> rcases hbc with h2 | ⟨h2, h2'⟩
  · left; exact lt_trans h2 h1
  · left; rw [← h2]; exact h1
  · left; rw [h1]; exact h2
  · right; exact ⟨h1.trans h2, h1'.trans h2'⟩

/-- `processed_results.sort(key=lambda x: x['score'], reverse=True)`,
indexed by original position to express stability. -/
def post_sort_pairs (l : List EnhancedResult) : List (Nat × EnhancedResult) :=
  List.insertionSort result_order l.enum

/-- `for i, result in enumerate(processed_results): result['rank'] = i + 1`. -/
def assign_ranks (l : List EnhancedResult) : List EnhancedResult :=
  l.enum.map (fun p => { p.2 with rank := p.1 + 1 })

/-- `TableQueryProcessor._post_process_results`. -/
def post_process_results (raw : List RawResult) (intent : Intent) :
    List EnhancedResult :=
  assign_ranks ((post_sort_pairs (post_process_dedup raw intent).1).map
    Prod.snd)

/-! ### Dedup claims -/

theorem adjust_granularity_fields (e : EnhancedResult) (i : Intent) :
    (adjust_granularity e i).chunk_type = e.chunk_type ∧
      (adjust_granularity e i).metadata = e.metadata ∧
      (adjust_granularity e i).content = e.content := by
  unfold adjust_granularity
  split_ifs <;> exact ⟨rfl, rfl, rfl⟩

theorem adjust_calculation_fields (e : EnhancedResult) (i : Intent) :
    (adjust_calculation e i).chunk_type = e.chunk_type ∧
      (adjust_calculation e i).metadata = e.metadata ∧
      (adjust_calculation e i).content = e.content := by
  unfold adjust_calculation
  split_ifs <;> exact ⟨rfl, rfl, rfl⟩

theorem adjust_data_type_fields (e : EnhancedResult) (i : Intent) :
    (adjust_data_type e i).chunk_type = e.chunk_type ∧
      (adjust_data_type e i).metadata = e.metadata ∧
      (adjust_data_type e i).content = e.content := by
  unfold adjust_data_type
  by_cases hd : i.data_type ≠ "unknown"
  · rw [if_pos hd]
    cases h : extract_table_type e with
    | none => exact ⟨rfl, rfl, rfl⟩
    | some tt =>
      dsimp only
      split_ifs <;> exact ⟨rfl, rfl, rfl⟩
  · rw [if_neg hd]
    exact ⟨rfl, rfl, rfl⟩

/-- The dedup test's candidate keeps the raw chunk's type, metadata and
content: only the score and explanation fields differ. -/
theorem processed_candidate_fields (intent : Intent) (r : RawResult) :
    (processed_candidate intent r).chunk_type = r.data.chunk_type ∧
      (processed_candidate intent r).metadata = r.data.metadata ∧
      (processed_candidate intent r).content = r.data.content := by
  unfold processed_candidate adjust_by_intent
  set e1 := (if (enhance_result r intent).chunk_type = "table_full" then
      { enhance_result r intent with
          score := (enhance_result r intent).score * 1.1 }
    else enhance_result r intent) with he1
  have h1 : e1.chunk_type = r.data.chunk_type ∧ e1.metadata = r.data.metadata ∧
      e1.content = r.data.content := by
    rw [he1]
    split_ifs <;> exact ⟨rfl, rfl, rfl⟩
  have h2 := adjust_granularity_fields e1 intent
  have h3 := adjust_calculation_fields (adjust_granularity e1 intent) intent
  have h4 := adjust_data_type_fields
    (adjust_calculation (adjust_granularity e1 intent) intent) intent
  exact ⟨by rw [h4.1, h3.1, h2.1, h1.1],
    by rw [h4.2.1, h3.2.1, h2.2.1, h1.2.1],
    by rw [h4.2.2, h3.2.2, h2.2.2, h1.2.2]⟩

/-- Predicate: a `full` chunk carrying this `table_id`. -/
def is_full_tid (tid : Option String) (e : EnhancedResult) : Bool :=
  decide (e.chunk_type = "table_full" ∧ e.metadata.table_id = tid)

/-- The projection on which the dedup filter claims are stated. -/
def e_proj (e : EnhancedResult) : String × Option String × String :=
  (e.chunk_type, e.metadata.table_id, e.content)

def r_proj (r : RawResult) : String × Option String × String :=
  (r.data.chunk_type, r.data.metadata.table_id, r.data.content)

theorem dedup_full_count (intent : Intent) :
    ∀ (raw : List RawResult) (res : List EnhancedResult)
      (seen : List (Option String)),
      (∀ tid : Option String, (res.filter (is_full_tid tid)).length ≤ 1 ∧
        (0 < (res.filter (is_full_tid tid)).length → tid ∈ seen)) →
      ∀ tid : Option String,
        (((raw.foldl (post_loop_step intent) (res, seen)).1.filter
          (is_full_tid tid)).length ≤ 1 ∧
        (0 < ((raw.foldl (post_loop_step intent) (res, seen)).1.filter
          (is_full_tid tid)).length →
          tid ∈ (raw.foldl (post_loop_step intent) (res, seen)).2)) := by
  intro raw
  induction raw with
  | nil => intro res seen hinv tid; exact hinv tid
  | cons r rest ih =>
    intro res seen hinv tid
    rw [List.foldl_cons]
    have hfields := processed_candidate_fields intent r
    set e2 := processed_candidate intent r with he2
    by_cases hfull : e2.chunk_type = "table_full"
    · by_cases hseen : r.data.metadata.table_id ∈ seen
      · -- duplicate full chunk: dropped
        have hstep : post_loop_step intent (res, seen) r = (res, seen) := by
          unfold post_loop_step
          rw [← he2, if_neg]
          simp only [not_or]
          exact ⟨by simpa using hseen, by simpa using hfull⟩
        rw [hstep]
        exact ih res seen hinv tid
      · -- first full chunk of this id: appended, id recorded
        have hstep : post_loop_step intent (res, seen) r =
            (res ++ [e2], seen ++ [r.data.metadata.table_id]) := by
          unfold post_loop_step
          rw [← he2, if_pos (Or.inl hseen), if_pos hfull]
        rw [hstep]
        apply ih
        intro tid'
        rw [List.filter_append, List.length_append]
        by_cases htid : tid' = r.data.metadata.table_id
        · have hcount0 : (res.filter (is_full_tid tid')).length = 0 := by
            by_contra hc
            exact hseen (htid ▸ (hinv tid').2 (by omega))
          have hone : ([e2].filter (is_full_tid tid')).length = 1 := by
            have hm : is_full_tid tid' e2 = true := by
              unfold is_full_tid
              rw [hfields.2.1]
              exact decide_eq_true_eq.mpr ⟨hfull, htid.symm⟩
            simp [List.filter, hm]
          rw [hcount0, hone]
          refine ⟨by omega, fun _ => ?_⟩
          rw [htid]
          exact List.mem_append_right _ (by simp)
        · have hzero : ([e2].filter (is_full_tid tid')).length = 0 := by
            have : is_full_tid tid' e2 = false := by
              unfold is_full_tid
              rw [hfields.2.1]
              simp only [decide_eq_false_iff_not, not_and]
              intro _
              exact fun h => htid h.symm
            simp [List.filter, this]
          rw [hzero]
          refine ⟨by have := (hinv tid').1; omega, fun h => ?_⟩
          exact List.mem_append_left _ ((hinv tid').2 (by omega))
    · -- non-full chunk: appended, seen unchanged
      have hstep : post_loop_step intent (res, seen) r =
          (res ++ [e2], seen) := by
        unfold post_loop_step
        rw [← he2, if_pos (Or.inr hfull), if_neg hfull]
      rw [hstep]
      apply ih
      intro tid'
      rw [List.filter_append, List.length_append]
      have hzero : ([e2].filter (is_full_tid tid')).length = 0 := by
        have : is_full_tid tid' e2 = false := by
          unfold is_full_tid
          simp only [decide_eq_false_iff_not, not_and]
          intro h
          exact absurd h hfull
        simp [List.filter, this]
      rw [hzero]
      exact ⟨by have := (hinv tid').1; omega,
        fun h => (hinv tid').2 (by omega)⟩

theorem dedup_nonfull_pass (intent : Intent) :
    ∀ (raw : List RawResult) (res : List EnhancedResult)
      (seen : List (Option String)),
      (((raw.foldl (post_loop_step intent) (res, seen)).1.filter
          (fun e => decide (e.chunk_type ≠ "table_full"))).map e_proj) =
        ((res.filter (fun e => decide (e.chunk_type ≠ "table_full"))).map
          e_proj) ++
        ((raw.filter (fun r => decide (r.data.chunk_type ≠ "table_full"))).map
          r_proj) := by
  intro raw
  induction raw with
  | nil =>
    intro res seen
    simp
  | cons r rest ih =>
    intro res seen
    rw [List.foldl_cons]
    have hfields := processed_candidate_fields intent r
    set e2 := processed_candidate intent r with he2
    by_cases hfull : e2.chunk_type = "table_full"
    · have hrfull : r.data.chunk_type = "table_full" := by
        rw [← hfields.1]; exact hfull
      have hfilter_r : (r :: rest).filter
          (fun r => decide (r.data.chunk_type ≠ "table_full")) =
          rest.filter (fun r => decide (r.data.chunk_type ≠ "table_full")) := by
        rw [List.filter_cons]
        rw [if_neg (by simp [hrfull])]
      rw [hfilter_r]
      by_cases hseen : r.data.metadata.table_id ∈ seen
      · have hstep : post_loop_step intent (res, seen) r = (res, seen) := by
          unfold post_loop_step
          rw [← he2, if_neg]
          simp only [not_or]
          exact ⟨by simpa using hseen, by simpa using hfull⟩
        rw [hstep]
        exact ih res seen
      · have hstep : post_loop_step intent (res, seen) r =
            (res ++ [e2], seen ++ [r.data.metadata.table_id]) := by
          unfold post_loop_step
          rw [← he2, if_pos (Or.inl hseen), if_pos hfull]
        rw [hstep, ih]
        have : (res ++ [e2]).filter
            (fun e => decide (e.chunk_type ≠ "table_full")) =
            res.filter (fun e => decide (e.chunk_type ≠ "table_full")) := by
          rw [List.filter_append, List.filter_cons]
          rw [if_neg (by simp [hfull])]
          simp
        rw [this]
    · have hrfull : r.data.chunk_type ≠ "table_full" := by
        rw [← hfields.1]; exact hfull
      have hstep : post_loop_step intent (res, seen) r =
          (res ++ [e2], seen) := by
        unfold post_loop_step
        rw [← he2, if_pos (Or.inr hfull), if_neg hfull]
      rw [hstep, ih]
      have h1 : (res ++ [e2]).filter
          (fun e => decide (e.chunk_type ≠ "table_full")) =
          res.filter (fun e => decide (e.chunk_type ≠ "table_full")) ++ [e2] := by
        rw [List.filter_append, List.filter_cons]
        rw [if_pos (by simp [hfull])]
        simp
      have h2 : (r :: rest).filter
          (fun r => decide (r.data.chunk_type ≠ "table_full")) =
          r :: rest.filter (fun r => decide (r.data.chunk_type ≠ "table_full")) := by
        rw [List.filter_cons]
        rw [if_pos (by simp [hrfull])]
      rw [h1, h2]
      have hproj : e_proj e2 = r_proj r := by
        unfold e_proj r_proj
        rw [hfields.1, hfields.2.1, hfields.2.2]
      rw [List.map_append, List.map_cons]
      simp [hproj]

/-- An intent with nothing detected (`unknown` data type, default
granularity). -/
def neutral_intent : Intent := ⟨"unknown", "specific", .none, false, false, ""⟩

/-- Two `full` chunks and one `row` chunk sharing one `table_id`. -/
def dedup_example : List RawResult :=
  [⟨2, 0, ⟨0, "table_full", "f1", ⟨some "T", none, none⟩⟩⟩,
   ⟨2, 1, ⟨0, "table_full", "f2", ⟨some "T", none, none⟩⟩⟩,
   ⟨1, 2, ⟨0, "table_row", "r1", ⟨some "T", none, none⟩⟩⟩]

/-- C4: the dedup step keeps at most one `full` chunk per `table_id` value,
passes every non-`full` candidate through in order (as witnessed by the
(type, table_id, content) projection), and on the spec's example — two `full`
chunks and a `row` chunk sharing one id — keeps exactly the first `full` and
the `row`. -/
theorem dedup_keeps_one_full_per_table (raw : List RawResult)
    (intent : Intent) :
    (∀ tid : Option String,
      ((post_process_dedup raw intent).1.filter (is_full_tid tid)).length ≤ 1) ∧
    (((post_process_dedup raw intent).1.filter
        (fun e => decide (e.chunk_type ≠ "table_full"))).map e_proj =
      (raw.filter (fun r => decide (r.data.chunk_type ≠ "table_full"))).map
        r_proj) ∧
    ((post_process_dedup dedup_example neutral_intent).1.map e_proj =
      [("table_full", some "T", "f1"), ("table_row", some "T", "r1")]) := by
  refine ⟨?_, ?_, ?_⟩
  · intro tid
    have h := dedup_full_count intent raw [] []
      (fun tid' => ⟨by simp, by simp⟩) tid
    exact h.1
  · have h := dedup_nonfull_pass intent raw [] []
    unfold post_process_dedup
    rw [h]
    simp
  · decide

/-! ### Re-sort and rank claims -/

theorem post_results_getElem (raw : List RawResult) (intent : Intent)
    (p : Nat) :
    (post_process_results raw intent)[p]? =
      ((post_sort_pairs (post_process_dedup raw intent).1)[p]?).map
        (fun q => { q.2 with rank := p + 1 }) := by
  unfold post_process_results assign_ranks
  rw [List.getElem?_map, List.getElem?_enum, List.getElem?_map]
  cases (post_sort_pairs (post_process_dedup raw intent).1)[p]? with
  | none => rfl
  | some q => rfl

/-- C7 counterexample: the re-assigned rank of the first (position-0) result
is `1`, not `0` — the code runs `result['rank'] = i + 1`. -/
theorem rank_is_one_based_not_zero :
    ((post_process_results
        [⟨1, 0, ⟨0, "table_row", "a", ⟨none, none, none⟩⟩⟩]
        neutral_intent).map (fun e => e.rank) = [1]) ∧
      ¬((post_process_results
        [⟨1, 0, ⟨0, "table_row", "a", ⟨none, none, none⟩⟩⟩]
        neutral_intent).map (fun e => e.rank) = [0]) := by
  exact ⟨by decide, by decide⟩

/-- C7 (amended): after the re-sort, each result's `rank` equals its 1-based
position (`i + 1`, not 0-based); the sort is by adjusted score descending and
stable — candidates with equal adjusted scores keep their order in the
deduplicated candidate list. -/
theorem post_process_rank_one_based_stable (raw : List RawResult)
    (intent : Intent) :
    (∀ (p : Nat) (r : EnhancedResult),
      (post_process_results raw intent)[p]? = some r → r.rank = p + 1) ∧
    (∀ (p p' : Nat) (a b : Nat × EnhancedResult), p < p' →
      (post_sort_pairs (post_process_dedup raw intent).1)[p]? = some a →
      (post_sort_pairs (post_process_dedup raw intent).1)[p']? = some b →
      a.2.score = b.2.score → a.1 < b.1) ∧
    (∀ (p p' : Nat) (a b : EnhancedResult), p ≤ p' →
      (post_process_results raw intent)[p]? = some a →
      (post_process_results raw intent)[p']? = some b →
      b.score ≤ a.score) := by
  set ded := (post_process_dedup raw intent).1 with hded
  set pairs := post_sort_pairs ded with hpairs
  have hsorted : List.Sorted result_order pairs :=
    List.sorted_insertionSort result_order ded.enum
  have hperm : pairs.Perm ded.enum := List.perm_insertionSort result_order _
  have hrel : ∀ (p p' : Nat) (a b : Nat × EnhancedResult), p < p' →
      pairs[p]? = some a → pairs[p']? = some b → result_order a b := by
    intro p p' a b hlt ha hb
    have hp' : p' < pairs.length := (List.getElem?_eq_some.mp hb).1
    have hp : p < pairs.length := by omega
    have h := List.pairwise_iff_getElem.mp hsorted p p' hp hp' hlt
    have hea := Option.some_inj.mp
      ((List.getElem?_eq_getElem hp).symm.trans ha)
    have heb := Option.some_inj.mp
      ((List.getElem?_eq_getElem hp').symm.trans hb)
    rw [hea, heb] at h
    exact h
  refine ⟨?_, ?_, ?_⟩
  · intro p r hr
    rw [post_results_getElem] at hr
    cases hq : pairs[p]? with
    | none => rw [hq] at hr; cases hr
    | some q =>
      rw [hq] at hr
      cases hr
      rfl
  · intro p p' a b hlt ha hb hscore
    have h := hrel p p' a b hlt ha hb
    unfold result_order at h
    have hle : a.1 ≤ b.1 := by
      rcases h with h | ⟨-, h⟩
      · rw [hscore] at h
        exact absurd h (lt_irrefl _)
      · exact h
    have hnodup : (pairs.map Prod.fst).Nodup := by
      have hpermf : (pairs.map Prod.fst).Perm (ded.enum.map Prod.fst) :=
        hperm.map Prod.fst
      rw [List.enum_map_fst] at hpermf
      exact hpermf.nodup_iff.mpr (List.nodup_range _)
    have hne : a.1 ≠ b.1 := by
      intro heq
      have hp' : p' < pairs.length := (List.getElem?_eq_some.mp hb).1
      have h1 : (pairs.map Prod.fst)[p]? = some a.1 := by
        rw [List.getElem?_map, ha]; rfl
      have h2 : (pairs.map Prod.fst)[p']? = some b.1 := by
        rw [List.getElem?_map, hb]; rfl
      rw [← heq] at h2
      exact List.nodup_iff_getElem?_ne_getElem?.mp hnodup p p' hlt
        (by rw [List.length_map]; omega) (h1.trans h2.symm)
    omega
  · intro p p' a b hle ha hb
    rw [post_results_getElem] at ha hb
    cases hqa : pairs[p]? with
    | none => rw [hqa] at ha; cases ha
    | some qa =>
      cases hqb : pairs[p']? with
      | none => rw [hqb] at hb; cases hb
      | some qb =>
        rw [hqa] at ha
        rw [hqb] at hb
        cases ha
        cases hb
        show qb.2.score ≤ qa.2.score
        rcases Nat.eq_or_lt_of_le hle with he | hlt
        · subst he
          rw [hqa] at hqb
          cases hqb
          exact le_refl _
        · have h := hrel p p' qa qb hlt hqa hqb
          unfold result_order at h
          rcases h with h | ⟨h, -⟩
          · exact le_of_lt h
          · exact le_of_eq h.symm

/-- Two equal-score candidates, for the C7 witness. -/
def eq_raw : List RawResult :=
  [⟨1, 0, ⟨0, "x", "a", ⟨none, none, none⟩⟩⟩,
   ⟨1, 1, ⟨0, "x", "b", ⟨none, none, none⟩⟩⟩]

/-- Witness for the amended C7: on two equal-score candidates the first keeps
position 0 with rank 1, and the stable sort keeps the original order. -/
theorem post_process_rank_one_based_stable_witness :
    ((post_process_results eq_raw neutral_intent)[0]? =
        some ⟨1, 1, "a", "x", ⟨none, none, none⟩, 0, ""⟩ ∧
      (⟨1, 1, "a", "x", ⟨none, none, none⟩, 0, ""⟩ : EnhancedResult).rank =
        0 + 1) ∧
    ((post_sort_pairs (post_process_dedup eq_raw neutral_intent).1)[0]? =
        some (0, ⟨1, 0, "a", "x", ⟨none, none, none⟩, 0, ""⟩) ∧
      (post_sort_pairs (post_process_dedup eq_raw neutral_intent).1)[1]? =
        some (1, ⟨1, 1, "b", "x", ⟨none, none, none⟩, 0, ""⟩) ∧
      (0 : Nat) < 1) := by
  have h := post_process_rank_one_based_stable eq_raw neutral_intent
  refine ⟨⟨by decide, h.1 0 _ (by decide)⟩, by decide, by decide, ?_⟩
  exact h.2.1 0 1 (0, ⟨1, 0, "a", "x", ⟨none, none, none⟩, 0, ""⟩)
    (1, ⟨1, 1, "b", "x", ⟨none, none, none⟩, 0, ""⟩)
    (by omega) (by decide) (by decide) (by decide)

end NestedTable
